import Mathlib

/-!
# dnsblock.c: a DNS blocklist kept in a chained hash table

Shallow embedding of `src/dnsblock.c`.

* A `char *` is a list of bytes, the bytes stored from the pointer onwards.  The
  terminating NUL is the first zero byte of the list or, when the list holds no
  zero byte, it is implied right after the last element.  Every string function
  below therefore stops at the first zero byte or at the end of the list.
* A `node *` is the list of the nodes reachable through `next`: `NULL` is `[]`
  and a pointer to a node is that node followed by the rest of its chain.
* The hash table `node **htable` is the list of its `tabsz` chains.
* `unsigned long` is 64 bits wide (LP64); the hash arithmetic wraps at `2 ^ 64`.
-/

namespace DnsBlock

/-! ## Data model -/

/-- An `unsigned char`. -/
abbrev Byte := Fin 256

/-- A `char *`: the bytes from the pointer onwards, terminator implied at the end. -/
abbrev CBuf := List Byte

/-- The bytes of an ASCII string literal. -/
def ascii (s : String) : CBuf := s.toList.map (fun ch => Fin.ofNat ch.toNat)

/-- Default hash table elements (`#define TABSZ 1873`). -/
def TABSZ : Nat := 1873

/-- Smallest allowable hash table size (`#define MINTABSZ 3`). -/
def MINTABSZ : Nat := 3

/-- Largest `unsigned long`. -/
def ULONG_MAX : Nat := 2 ^ 64 - 1

/-- The `typedef struct node`: the owned name; the `next` field is the tail of the
list the node sits in. -/
structure node where
  DNSname : CBuf
deriving DecidableEq, Repr

/-- A `node *`: `NULL` is `[]`. -/
abbrev Chain := List node

/-- A `node **htable`: the array of chains. -/
abbrev Table := List Chain

/-! ## C library functions used by the program -/

/-- The C string a buffer holds: its bytes before the first NUL.  This is what
`%s` prints and what `strdup` copies. -/
def cstr (buf : CBuf) : CBuf := buf.takeWhile (fun c => c ≠ 0)

/-- Library `strdup`, taken to succeed: a fresh copy of the string. -/
def strdup (s : CBuf) : CBuf := cstr s

/-- Library `strcmp`: the difference of the first pair of differing bytes (as
`unsigned char`), `0` when both strings end together. -/
def strcmp : CBuf → CBuf → Int
  | [], [] => 0
  | [], b :: _ => - (b.val : Int)
  | a :: _, [] => (a.val : Int)
  | a :: s1, b :: s2 =>
    if a ≠ b then (a.val : Int) - (b.val : Int)
    else if a = 0 then 0
    else strcmp s1 s2

/-- Library `strchr`: offset of the first occurrence of `ch` in the string, the
terminator included; `none` is `NULL`. -/
def strchr : CBuf → Byte → Option Nat
  | [], ch => if ch = 0 then some 0 else none
  | c :: s, ch =>
    if c = ch then some 0
    else if c = 0 then none
    else (strchr s ch).map (fun i => i + 1)

/-- Digits part of library `strtoul` in base ten: the value accumulated over the
leading decimal digits and the text left after them. -/
def strtoul_digits : CBuf → Nat → Nat × CBuf
  | [], acc => (acc, [])
  | c :: s, acc =>
    if 48 ≤ c.val ∧ c.val ≤ 57 then strtoul_digits s (10 * acc + (c.val - 48))
    else (acc, c :: s)

/-- Result of `strtoul`: the value, the text `endptr` points at, and `errno`
(`0` or `ERANGE`, written `34`). -/
structure Strtoul where
  value : Nat
  endptr : CBuf
  errno : Nat
deriving DecidableEq, Repr

/-- Library `isspace` in the C locale. -/
def isspace (c : Byte) : Bool := c.val = 32 ∨ (9 ≤ c.val ∧ c.val ≤ 13)

/-- Library `strtoul(nptr, &endptr, 10)`: skips white space, takes an optional
sign, then the longest run of decimal digits.  Without any digit the value is `0`
and `endptr` is `nptr`; a value above `ULONG_MAX` gives `ULONG_MAX` with `errno`
set to `ERANGE`; a minus sign negates the value modulo `2 ^ 64`. -/
def strtoul (nptr : CBuf) : Strtoul :=
  let s := (cstr nptr).dropWhile isspace
  let neg := s.head? = some 45
  let body := if s.head? = some 45 ∨ s.head? = some 43 then s.tail else s
  let r := strtoul_digits body 0
  if r.2.length = body.length then ⟨0, nptr, 0⟩
  else if r.1 > ULONG_MAX then ⟨ULONG_MAX, r.2, 34⟩
  else if neg then ⟨(2 ^ 64 - r.1) % 2 ^ 64, r.2, 0⟩
  else ⟨r.1, r.2, 0⟩

/-- Value of a decimal numeral, most significant digit first (`'0'` is 48). -/
def numeral_value (digits : CBuf) : Nat :=
  digits.foldl (fun acc c => 10 * acc + (c.val - 48)) 0

/-! ## Chains -/

/-- Source `dns_lookup`: walks the chain; returns the first node whose name
compares equal to `DNSname`, `NULL` if there is none. -/
def dns_lookup : Chain → CBuf → Chain
  | [], _ => []
  | currentNode :: next, DNSname =>
    if strcmp currentNode.DNSname DNSname = 0 then currentNode :: next
    else dns_lookup next DNSname

/-- Source `add_front`.  `malloc` tells whether the node allocation succeeds.  The
two stores through `nodeToAdd` come before the `NULL` test, so a failed
allocation is a null-pointer store: the result is `none`.  Otherwise the result
is `some` of the returned pointer. -/
def add_front (malloc : Bool) (front : Chain) (DNSname : CBuf) : Option Chain :=
  if malloc = false then none
  else
    let nodeToAdd : Chain := { DNSname := strdup DNSname } :: front
    if nodeToAdd = [] then some []
    else some nodeToAdd

/-! ## Hash function -/

/-- Addition of two `unsigned long`. -/
def add64 (a b : Nat) : Nat := (a + b) % 2 ^ 64

/-- Subtraction of two `unsigned long`. -/
def sub64 (a b : Nat) : Nat := (a + (2 ^ 64 - b % 2 ^ 64)) % 2 ^ 64

/-- Left shift of an `unsigned long` by `k < 64`. -/
def shl64 (a k : Nat) : Nat := (a <<< k) % 2 ^ 64

/-- Loop of `hash`: `while ((c = (unsigned char)*str++) != 0)
hash = c + (hash << 6) + (hash << 16) - hash;`. -/
def hash_loop : CBuf → Nat → Nat
  | [], hash => hash
  | ch :: str, hash =>
    let c := ch.val
    if c ≠ 0 then
      hash_loop str (sub64 (add64 (add64 c (shl64 hash 6)) (shl64 hash 16)) hash)
    else hash

/-- Source `hash`. -/
def hash (str : CBuf) : Nat := hash_loop str 0

/-- The hash as the specification words it: one step on the accumulator, with
the arithmetic done in the integers and reduced modulo `2 ^ 64`. -/
def spec_hash_step (acc : Nat) (c : Byte) : Nat :=
  (c.val + (acc <<< 6) + (acc <<< 16) - acc) % 2 ^ 64

/-- The hash as the specification words it: the left fold of the step from `0`. -/
def spec_hash (s : List Byte) : Nat := s.foldl spec_hash_step 0

/-! ## Statistics -/

/-- The four numbers `dostats` prints. -/
structure Stats where
  tabsz : Nat
  nodeCount : Nat
  longestChain : Nat
  shortestChain : Nat
deriving DecidableEq, Repr

/-- Locals of `dostats`.  The counters are `unsigned long`; a chain node takes at
least sixteen bytes of a 64-bit address space, so the counts stay far below
`2 ^ 64` and are kept as plain naturals. -/
structure StatsVars where
  nodeCount : Nat
  longestChain : Nat
  shortestChain : Nat
  count : Nat
deriving DecidableEq, Repr

/-- Inner `while` of `dostats`: `count++; nodeCount += 1;` for every node. -/
def dostats_walk : Chain → StatsVars → StatsVars
  | [], v => v
  | _ :: next, v => dostats_walk next { v with count := v.count + 1, nodeCount := v.nodeCount + 1 }

/-- Body of the `for` loop of `dostats` for the chain `htable[i]`. -/
def dostats_body (v : StatsVars) (chain : Chain) : StatsVars :=
  if chain = [] then v
  else
    let v1 := dostats_walk chain { v with count := 0 }
    let v2 := if v1.count < v1.shortestChain then { v1 with shortestChain := v1.count } else v1
    if v2.count > v2.longestChain then { v2 with longestChain := v2.count } else v2

/-- Source `dostats`: the values written to `stderr`. -/
def dostats (htable : Table) (tabsz : Nat) : Stats :=
  let v := (List.range tabsz).foldl (fun v i => dostats_body v (htable.getD i []))
    { nodeCount := 0, longestChain := 0, shortestChain := 999999, count := 0 }
  { tabsz := tabsz, nodeCount := v.nodeCount, longestChain := v.longestChain,
    shortestChain := v.shortestChain }

/-! ## Option parsing -/

/-- One return of library `getopt(argc, argv, "b:t:s")` other than the final `-1`:
the value returned (an option character, or `'?'` for an unknown option or a
missing argument) and `optarg`. -/
structure Getopt where
  opt : Nat
  optarg : CBuf
deriving DecidableEq, Repr

/-- Variables `parseopts` writes: its local `eFlag` and the three out-parameters
(`*filename` is `none` for `NULL`). -/
structure ParseVars where
  eFlag : Nat
  filename : Option CBuf
  tabsz : Nat
  stats : Nat
deriving DecidableEq, Repr

/-- The `switch (opt)` of `parseopts`: `'b'` is 98, `'s'` is 115, `'t'` is 116;
`'?'` falls through to `default`. -/
def parseopts_switch (v : ParseVars) (g : Getopt) : ParseVars :=
  if g.opt = 98 then { v with filename := some g.optarg }
  else if g.opt = 115 then { v with stats := 1 }
  else if g.opt = 116 then
    let r := strtoul g.optarg
    let v1 := { v with tabsz := r.value }
    if r.value < MINTABSZ ∨ r.errno ≠ 0 ∨ r.endptr.getD 0 0 ≠ 0 then { v1 with eFlag := 1 }
    else v1
  else { v with eFlag := 1 }

/-- Source `parseopts`, over the sequence of `getopt` returns; `tabsz` and `stats`
are the values the out-parameters hold on entry.  The field `eFlag` of the
result is the value returned. -/
def parseopts (opts : List Getopt) (tabsz stats : Nat) : ParseVars :=
  let v := opts.foldl parseopts_switch
    { eFlag := 0, filename := none, tabsz := tabsz, stats := stats }
  let v1 := if v.filename = none then { v with eFlag := 1 } else v
  if v1.eFlag ≠ 0 then { v1 with eFlag := 1 } else v1

/-- A `-t` argument `parseopts` accepts: a non-empty run of decimal digits whose
value is at least `MINTABSZ` and fits an `unsigned long`. -/
def good_tabsz_arg (d : CBuf) : Bool :=
  decide (d ≠ [] ∧ (∀ c ∈ d, 48 ≤ c.val ∧ c.val ≤ 57) ∧
    MINTABSZ ≤ numeral_value d ∧ numeral_value d ≤ ULONG_MAX)

/-- A `getopt` return that does not make `parseopts` fail: `-b file`, `-s`, or `-t`
with an argument it accepts. -/
def good_option (g : Getopt) : Bool :=
  g.opt = 98 || g.opt = 115 || (g.opt = 116 && good_tabsz_arg g.optarg)

/-! ## Loading and querying -/

/-- Library `calloc(tabsz, sizeof(node *))` when it succeeds: `tabsz` null chains. -/
def calloc (tabsz : Nat) : Table := List.replicate tabsz []

/-- The lines `trailingChar = strchr(line, '\n'); if (trailingChar != NULL)
*trailingChar = '\0';` shared by `loadtable` and `querytable`. -/
def strip_newline (line : CBuf) : CBuf :=
  match strchr line 10 with
  | some i => line.set i 0
  | none => line

/-- How one pass through the insert part of the `loadtable` loop ends. -/
inductive LoadResult where
  | inserted
  | duplicate
  | failed
  | fault
deriving DecidableEq, Repr

/-- Result of the insert part of the loop with the table it leaves. -/
structure LoadStep where
  result : LoadResult
  htable : Table
deriving DecidableEq, Repr

/-- Lines 269 to 280 of `loadtable`, for the already trimmed `line`: hash, look
up, report a duplicate or insert at the front.  `failed` is `return 1`; `fault`
is the null-pointer store inside `add_front`. -/
def loadtable_insert (malloc : Bool) (htable : Table) (tabsz : Nat) (line : CBuf) : LoadStep :=
  let hashcode := hash line % tabsz
  if dns_lookup (htable.getD hashcode []) line ≠ [] then ⟨.duplicate, htable⟩
  else
    match add_front malloc (htable.getD hashcode []) line with
    | none => ⟨.fault, htable⟩
    | some tmp =>
      if tmp ≠ [] then ⟨.inserted, htable.set hashcode tmp⟩
      else ⟨.failed, htable⟩

/-- What `loadtable` leaves behind when it returns: the return value, the table,
and the names reported on `stderr` as duplicates, oldest first. -/
structure LoadOut where
  ret : Nat
  htable : Table
  dups : List CBuf
deriving DecidableEq, Repr

/-- The `while ((lineLength = getline(...)) > 0)` loop of `loadtable` over the
lines `getline` delivers.  `malloc k` tells whether an allocation made while
line `k` of the remaining lines is handled succeeds.  `none` is a fault. -/
def loadtable_loop (tabsz : Nat) : (Nat → Bool) → List CBuf → Table → List CBuf → Option LoadOut
  | _, [], htable, dups => some ⟨0, htable, dups⟩
  | malloc, line :: rest, htable, dups =>
    if line.length > 0 then
      if line.getD 0 0 = 10 ∨ line.getD 0 0 = 35 then
        loadtable_loop tabsz (fun k => malloc (k + 1)) rest htable dups
      else
        let line1 := strip_newline line
        let step := loadtable_insert (malloc 0) htable tabsz line1
        match step.result with
        | .duplicate =>
          loadtable_loop tabsz (fun k => malloc (k + 1)) rest step.htable (dups ++ [cstr line1])
        | .inserted => loadtable_loop tabsz (fun k => malloc (k + 1)) rest step.htable dups
        | .failed => some ⟨1, step.htable, dups⟩
        | .fault => none
    else some ⟨0, htable, dups⟩

/-- Source `loadtable`.  `file` is `none` when `fopen` fails, otherwise the lines
of the block list as `getline` delivers them. -/
def loadtable (malloc : Nat → Bool) (htable : Table) (tabsz : Nat)
    (file : Option (List CBuf)) : Option LoadOut :=
  match file with
  | none => some ⟨1, htable, []⟩
  | some lines => loadtable_loop tabsz malloc lines htable []

/-- Lines 313 to 321 of `querytable`, for the already trimmed `line`: `true` when
`[blocked]` is printed, `false` when `[not blocked]` is. -/
def querytable_lookup (htable : Table) (tabsz : Nat) (line : CBuf) : Bool :=
  let hashcode := hash line % tabsz
  if htable.getD hashcode [] ≠ [] then
    let data := dns_lookup (htable.getD hashcode []) line
    if data ≠ [] then true
    else false
  else false

/-- One line written by `querytable`: the name printed with `%s` and whether the
tag after it is `[blocked]` or `[not blocked]`. -/
structure Verdict where
  name : CBuf
  blocked : Bool
deriving DecidableEq, Repr

/-- Source `querytable` over the lines read from `stdin`: the lines printed. -/
def querytable (htable : Table) (tabsz : Nat) : List CBuf → List Verdict
  | [] => []
  | line :: rest =>
    let line1 := strip_newline line
    ⟨cstr line1, querytable_lookup htable tabsz line1⟩ :: querytable htable tabsz rest

/-- The table after loading a sequence of already trimmed names into it, every
allocation succeeding. -/
def load_names (tabsz : Nat) (htable : Table) (names : List CBuf) : Table :=
  names.foldl (fun t n => (loadtable_insert true t tabsz n).htable) htable

/-- Tables reachable from the empty table by passes through the insert part of
`loadtable`, whatever the allocator does. -/
inductive Reachable (tabsz : Nat) : Table → Prop where
  | empty : Reachable tabsz (calloc tabsz)
  | load (malloc : Bool) (line : CBuf) {htable : Table} :
      Reachable tabsz htable → Reachable tabsz (loadtable_insert malloc htable tabsz line).htable

/-- Total number of nodes in the table. -/
def total_entries (htable : Table) : Nat := (htable.map List.length).sum

/-! ## Program -/

/-- What a run of `main` produces up to the end of `querytable`. -/
structure MainOut where
  status : Nat
  htable : Option Table
  stats : Option Stats
  stdout : List Verdict
deriving DecidableEq, Repr

/-- Source `main` up to the end of `querytable` (`EXIT_FAILURE` is `1`).  The
field `htable` is the table as the run leaves it, `none` when no table was
built.  `callocOk` tells whether the table allocation succeeds; `none` is a
fault inside `loadtable`.  The closing `deleteTable` call prints nothing and is
not part of this definition. -/
def main (opts : List Getopt) (callocOk : Bool) (malloc : Nat → Bool)
    (file : Option (List CBuf)) (stdin : List CBuf) : Option MainOut :=
  let p := parseopts opts TABSZ 0
  if p.eFlag ≠ 0 then some ⟨1, none, none, []⟩
  else if callocOk = false then some ⟨1, none, none, []⟩
  else
    match loadtable malloc (calloc p.tabsz) p.tabsz file with
    | none => none
    | some out =>
      if out.ret ≠ 0 then some ⟨1, some out.htable, none, []⟩
      else
        let st := if p.stats ≠ 0 then some (dostats out.htable p.tabsz) else none
        some ⟨0, some out.htable, st, querytable out.htable p.tabsz stdin⟩

/-- The table after a sequence of passes through the insert part of `loadtable`,
each with its own allocator answer and already trimmed name. -/
def load_steps (tabsz : Nat) (htable : Table) (steps : List (Bool × CBuf)) : Table :=
  steps.foldl (fun t s => (loadtable_insert s.1 t tabsz s.2).htable) htable

/-! ## Teardown -/

/-- The `for (i = 0; i < tabsz; ++i)` loop of `deleteTable`.  The counter `i` is an
`unsigned int` (32 bits): it is converted to `unsigned long` for the comparison
with `tabsz`, and `++i` wraps at `2 ^ 32`.  Each pass walks the chain `htable[i]`
and frees its nodes; the pass is recorded as the index with the chain read there.
`fuel` bounds the number of loop tests: `none` means the loop has not exited when
the fuel is used up. -/
def deleteTable_loop (htable : Table) (tabsz : Nat) :
    Nat → Nat → List (Nat × Chain) → Option (List (Nat × Chain))
  | 0, _, _ => none
  | fuel + 1, i, released =>
    if i < tabsz then
      deleteTable_loop htable tabsz fuel ((i + 1) % 2 ^ 32) (released ++ [(i, htable.getD i [])])
    else some released

/-- Source `deleteTable`: the buckets whose chains are released, in order, when the
loop exits within `fuel` tests. -/
def deleteTable (fuel : Nat) (htable : Table) (tabsz : Nat) : Option (List (Nat × Chain)) :=
  deleteTable_loop htable tabsz fuel 0 []

set_option maxRecDepth 100000

/-! ## Strings -/

theorem cstr_nil : cstr [] = [] := rfl

theorem cstr_cons (c : Byte) (s : CBuf) :
    cstr (c :: s) = if c = 0 then [] else c :: cstr s := by
  by_cases h : c = 0 <;> simp [cstr, List.takeWhile, h]

theorem cstr_idem (s : CBuf) : cstr (cstr s) = cstr s := by
  induction s with
  | nil => rfl
  | cons c s ih =>
    by_cases h : c = 0
    · simp [cstr_cons, h, cstr_nil]
    · simp [cstr_cons, h, ih]

theorem cstr_no_nul (s : CBuf) : ∀ c ∈ cstr s, c ≠ 0 := by
  intro c hc
  have := List.mem_takeWhile_imp hc
  simpa using this

theorem cstr_of_no_nul (s : CBuf) (h : ∀ c ∈ s, c ≠ 0) : cstr s = s := by
  induction s with
  | nil => rfl
  | cons c s ih =>
    have hc : c ≠ 0 := h c (List.mem_cons_self _ _)
    have hs : ∀ d ∈ s, d ≠ 0 := fun d hd => h d (List.mem_cons_of_mem _ hd)
    simp [cstr_cons, hc, ih hs]

theorem byte_val_eq_zero (c : Byte) : c.val = 0 ↔ c = 0 := by
  constructor
  · intro h
    exact Fin.ext h
  · intro h
    rw [h]
    rfl

theorem strcmp_eq_zero_iff (a b : CBuf) : strcmp a b = 0 ↔ cstr a = cstr b := by
  induction a generalizing b with
  | nil =>
    cases b with
    | nil => simp [strcmp, cstr_nil]
    | cons b s2 =>
      by_cases hb : b = 0
      · simp [strcmp, cstr_nil, cstr_cons, hb]
      · have : b.val ≠ 0 := fun h => hb ((byte_val_eq_zero b).1 h)
        simp [strcmp, cstr_nil, cstr_cons, hb]
        omega
  | cons a s1 ih =>
    cases b with
    | nil =>
      by_cases ha : a = 0
      · simp [strcmp, cstr_nil, cstr_cons, ha]
      · have : a.val ≠ 0 := fun h => ha ((byte_val_eq_zero a).1 h)
        simp [strcmp, cstr_nil, cstr_cons, ha]
        omega
    | cons b s2 =>
      by_cases hab : a = b
      · subst hab
        by_cases ha : a = 0
        · simp [strcmp, cstr_cons, ha]
        · simp [strcmp, cstr_cons, ha, ih s2]
      · have hv : (a.val : Int) - (b.val : Int) ≠ 0 := by
          intro h
          apply hab
          apply Fin.ext
          omega
        by_cases ha : a = 0
        · have hb : b ≠ 0 := fun h => hab (ha.trans h.symm)
          simp [strcmp, cstr_cons, ha, hb, hab]
          exact ⟨fun h => hb h.symm, fun h => hb ((byte_val_eq_zero b).1 h)⟩
        · by_cases hb : b = 0
          · simp [strcmp, cstr_cons, ha, hb, hab]
            exact fun h => ha ((byte_val_eq_zero a).1 h)
          · simp [strcmp, cstr_cons, ha, hb, hab]
            exact hv

theorem hash_loop_cstr (s : CBuf) (h : Nat) : hash_loop (cstr s) h = hash_loop s h := by
  induction s generalizing h with
  | nil => rfl
  | cons c s ih =>
    by_cases hc : c = 0
    · simp [cstr_cons, hc, hash_loop]
    · have hv : c.val ≠ 0 := fun h => hc ((byte_val_eq_zero c).1 h)
      simp [cstr_cons, hc, hash_loop, hv, ih]

theorem hash_cstr (s : CBuf) : hash (cstr s) = hash s := hash_loop_cstr s 0

theorem hash_congr {a b : CBuf} (h : cstr a = cstr b) : hash a = hash b := by
  rw [← hash_cstr a, ← hash_cstr b, h]

theorem hash_step_eq (h : Nat) (c : Byte) :
    sub64 (add64 (add64 c.val (shl64 h 6)) (shl64 h 16)) h = spec_hash_step h c := by
  simp only [sub64, add64, shl64, spec_hash_step, Nat.shiftLeft_eq]
  omega

theorem hash_loop_eq_foldl (s : List Byte) (hs : ∀ c ∈ s, c ≠ 0) (h : Nat) :
    hash_loop s h = s.foldl spec_hash_step h := by
  induction s generalizing h with
  | nil => rfl
  | cons c s ih =>
    have hc : c.val ≠ 0 := fun e => hs c (List.mem_cons_self _ _) ((byte_val_eq_zero c).1 e)
    have hrest : ∀ d ∈ s, d ≠ 0 := fun d hd => hs d (List.mem_cons_of_mem _ hd)
    simp only [hash_loop, List.foldl_cons]
    rw [if_pos hc, hash_step_eq, ih hrest]

/-! ## Chains -/

theorem dns_lookup_eq_nil_iff (front : Chain) (name : CBuf) :
    dns_lookup front name = [] ↔ ∀ e ∈ front, cstr e.DNSname ≠ cstr name := by
  induction front with
  | nil => simp [dns_lookup]
  | cons e next ih =>
    by_cases h : strcmp e.DNSname name = 0
    · have h1 := (strcmp_eq_zero_iff _ _).1 h
      simp [dns_lookup, h, h1]
    · have h1 : cstr e.DNSname ≠ cstr name := fun e1 => h ((strcmp_eq_zero_iff _ _).2 e1)
      simp [dns_lookup, h, h1, ih]

theorem dns_lookup_split (front : Chain) (name : CBuf) (found : node) (rest : Chain)
    (h : dns_lookup front name = found :: rest) :
    ∃ pre, front = pre ++ found :: rest ∧ cstr found.DNSname = cstr name ∧
      ∀ e ∈ pre, cstr e.DNSname ≠ cstr name := by
  induction front with
  | nil => simp [dns_lookup] at h
  | cons e next ih =>
    by_cases h0 : strcmp e.DNSname name = 0
    · simp only [dns_lookup, h0, if_true] at h
      injection h with h1 h2
      subst h1
      subst h2
      exact ⟨[], rfl, (strcmp_eq_zero_iff _ _).1 h0, by simp⟩
    · simp only [dns_lookup, h0, if_false] at h
      obtain ⟨pre, hp, hf, hpre⟩ := ih h
      refine ⟨e :: pre, by rw [hp]; rfl, hf, ?_⟩
      intro x hx
      rcases List.mem_cons.1 hx with hx | hx
      · subst hx
        exact fun e1 => h0 ((strcmp_eq_zero_iff _ _).2 e1)
      · exact hpre x hx

/-! ## Table steps -/

theorem getD_calloc (tabsz i : Nat) : (calloc tabsz).getD i [] = [] := by
  unfold calloc
  by_cases h : i < tabsz
  · rw [List.getD_eq_getElem _ _ (by simpa using h)]
    simp
  · rw [List.getD_eq_default _ _ (by simpa using h)]

theorem loadtable_insert_eq (malloc : Bool) (htable : Table) (tabsz : Nat) (line : CBuf) :
    loadtable_insert malloc htable tabsz line =
      if dns_lookup (htable.getD (hash line % tabsz) []) line ≠ [] then ⟨.duplicate, htable⟩
      else if malloc = true then
        ⟨.inserted, htable.set (hash line % tabsz)
          ({ DNSname := cstr line } :: htable.getD (hash line % tabsz) [])⟩
      else ⟨.fault, htable⟩ := by
  simp only [loadtable_insert]
  generalize htable.getD (hash line % tabsz) [] = chain
  by_cases h : dns_lookup chain line = []
  · cases malloc <;> simp [h, add_front, strdup]
  · simp [h]

theorem loadtable_insert_length (malloc : Bool) (htable : Table) (tabsz : Nat) (line : CBuf) :
    (loadtable_insert malloc htable tabsz line).htable.length = htable.length := by
  rw [loadtable_insert_eq]
  split_ifs <;> simp

theorem Reachable.length_eq {tabsz : Nat} {htable : Table} (h : Reachable tabsz htable) :
    htable.length = tabsz := by
  induction h with
  | empty => simp [calloc]
  | load malloc line _ ih => rw [loadtable_insert_length]; exact ih

theorem querytable_lookup_eq (htable : Table) (tabsz : Nat) (line : CBuf) :
    querytable_lookup htable tabsz line =
      decide (dns_lookup (htable.getD (hash line % tabsz) []) line ≠ []) := by
  simp only [querytable_lookup]
  generalize htable.getD (hash line % tabsz) [] = chain
  by_cases h0 : chain = []
  · simp [h0, dns_lookup]
  · by_cases h1 : dns_lookup chain line = [] <;> simp [h0, h1]

theorem querytable_lookup_iff (htable : Table) (tabsz : Nat) (line : CBuf) :
    querytable_lookup htable tabsz line = true ↔
      ∃ e ∈ htable.getD (hash line % tabsz) [], cstr e.DNSname = cstr line := by
  rw [querytable_lookup_eq]
  simp only [decide_eq_true_eq, ne_eq, dns_lookup_eq_nil_iff]
  push_neg
  rfl

theorem querytable_lookup_calloc (tabsz : Nat) (line : CBuf) :
    querytable_lookup (calloc tabsz) tabsz line = false := by
  rw [querytable_lookup_eq, getD_calloc]
  simp [dns_lookup]

theorem loadtable_insert_result (htable : Table) (tabsz : Nat) (line : CBuf) :
    (loadtable_insert true htable tabsz line).result =
      if querytable_lookup htable tabsz line = true then .duplicate else .inserted := by
  rw [loadtable_insert_eq, querytable_lookup_eq]
  generalize htable.getD (hash line % tabsz) [] = chain
  by_cases h : dns_lookup chain line = [] <;> simp [h]

theorem querytable_lookup_insert {tabsz : Nat} (htab : 0 < tabsz) {htable : Table}
    (hlen : htable.length = tabsz) (m n : CBuf) :
    querytable_lookup (loadtable_insert true htable tabsz m).htable tabsz n =
      (querytable_lookup htable tabsz n || decide (cstr m = cstr n)) := by
  have hm : hash m % tabsz < htable.length := by rw [hlen]; exact Nat.mod_lt _ htab
  rw [Bool.eq_iff_iff]
  simp only [Bool.or_eq_true, decide_eq_true_eq, querytable_lookup_iff]
  rw [loadtable_insert_eq]
  by_cases hd : dns_lookup (htable.getD (hash m % tabsz) []) m = []
  · simp only [hd, ne_eq, not_true_eq_false, if_false, if_true]
    by_cases hi : hash n % tabsz = hash m % tabsz
    · rw [hi, List.getD_eq_getElem _ _ (by simpa using hm)]
      simp only [List.getElem_set_self, List.mem_cons]
      rw [List.getD_eq_getElem _ _ hm]
      constructor
      · rintro ⟨e, he | he, hc⟩
        · subst he
          right
          simpa [cstr_idem] using hc
        · exact Or.inl ⟨e, he, hc⟩
      · rintro (⟨e, he, hc⟩ | hc)
        · exact ⟨e, Or.inr he, hc⟩
        · exact ⟨_, Or.inl rfl, by simpa [cstr_idem] using hc⟩
    · have hne : hash m % tabsz ≠ hash n % tabsz := fun e => hi e.symm
      have hmn : cstr m ≠ cstr n := fun e => hi (by rw [hash_congr e])
      have hg : (htable.set (hash m % tabsz)
          ({ DNSname := cstr m } :: htable.getD (hash m % tabsz) [])).getD (hash n % tabsz) [] =
          htable.getD (hash n % tabsz) [] := by
        simp [List.getD_eq_getElem?_getD, List.getElem?_set_ne hne]
      rw [hg]
      simp [hmn]
  · simp only [hd, ne_eq, not_false_eq_true, if_true]
    constructor
    · intro h
      exact Or.inl h
    · rintro (h | h)
      · exact h
      · have hd1 := hd
        rw [dns_lookup_eq_nil_iff] at hd1
        push_neg at hd1
        obtain ⟨e, he, hc⟩ := hd1
        rw [← hash_congr h]
        exact ⟨e, he, hc.trans h⟩

/-! ## Counting -/

theorem dostats_walk_eq (chain : Chain) (v : StatsVars) :
    dostats_walk chain v =
      { v with count := v.count + chain.length, nodeCount := v.nodeCount + chain.length } := by
  induction chain generalizing v with
  | nil => rfl
  | cons e next ih =>
    simp only [dostats_walk, ih, List.length_cons]
    congr 1 <;> omega

theorem dostats_body_nodeCount (v : StatsVars) (chain : Chain) :
    (dostats_body v chain).nodeCount = v.nodeCount + chain.length := by
  unfold dostats_body
  by_cases h : chain = []
  · simp [h]
  · simp only [h, if_false, dostats_walk_eq]
    split_ifs <;> rfl

theorem foldl_range_getD {α β : Type} (f : β → α → β) (d : α) (l : List α) (b : β) :
    (List.range l.length).foldl (fun v i => f v (l.getD i d)) b = l.foldl f b := by
  induction l using List.reverseRecOn generalizing b with
  | nil => rfl
  | append_singleton l a ih =>
    rw [List.length_append, List.length_singleton, List.range_succ, List.foldl_append,
      List.foldl_append]
    have h1 : (List.range l.length).foldl (fun v i => f v ((l ++ [a]).getD i d)) b =
        (List.range l.length).foldl (fun v i => f v (l.getD i d)) b := by
      apply List.foldl_ext
      intro v i hi
      have hi1 : i < l.length := List.mem_range.1 hi
      simp [List.getD_eq_getElem?_getD, List.getElem?_append_left hi1]
    rw [h1, ih]
    simp [List.getD_eq_getElem?_getD]

theorem foldl_dostats_body_nodeCount (htable : Table) (v : StatsVars) :
    (htable.foldl dostats_body v).nodeCount = v.nodeCount + total_entries htable := by
  induction htable generalizing v with
  | nil => simp [total_entries]
  | cons chain rest ih =>
    rw [List.foldl_cons, ih, dostats_body_nodeCount]
    simp only [total_entries, List.map_cons, List.sum_cons]
    omega

theorem dostats_nodeCount {htable : Table} {tabsz : Nat} (hlen : htable.length = tabsz) :
    (dostats htable tabsz).nodeCount = total_entries htable := by
  unfold dostats
  subst hlen
  simp only
  rw [foldl_range_getD dostats_body [] htable, foldl_dostats_body_nodeCount]
  simp

theorem total_entries_calloc (tabsz : Nat) : total_entries (calloc tabsz) = 0 := by
  simp [total_entries, calloc]

theorem total_entries_set_cons (htable : Table) (i : Nat) (hi : i < htable.length) (x : node) :
    total_entries (htable.set i (x :: htable.getD i [])) = total_entries htable + 1 := by
  induction htable generalizing i with
  | nil => simp at hi
  | cons chain rest ih =>
    cases i with
    | zero => simp [total_entries]; omega
    | succ j =>
      have hj : j < rest.length := by simpa using hi
      have := ih j hj
      simp only [total_entries, List.set_cons_succ, List.map_cons, List.sum_cons,
        List.getD_cons_succ] at this ⊢
      omega

theorem total_entries_insert {tabsz : Nat} (htab : 0 < tabsz) {htable : Table}
    (hlen : htable.length = tabsz) (n : CBuf) :
    total_entries (loadtable_insert true htable tabsz n).htable =
      total_entries htable + if querytable_lookup htable tabsz n = true then 0 else 1 := by
  have hm : hash n % tabsz < htable.length := by rw [hlen]; exact Nat.mod_lt _ htab
  rw [loadtable_insert_eq, querytable_lookup_eq]
  by_cases h : dns_lookup (htable.getD (hash n % tabsz) []) n = []
  · simp only [h, ne_eq, not_true_eq_false, if_false, if_true, decide_False]
    rw [total_entries_set_cons _ _ hm]
    simp
  · simp only [h, ne_eq, not_false_eq_true, if_true, decide_True]
    simp

/-! ## Loading a sequence of names -/

theorem load_names_nil (tabsz : Nat) (htable : Table) : load_names tabsz htable [] = htable := rfl

theorem load_names_cons (tabsz : Nat) (htable : Table) (n : CBuf) (names : List CBuf) :
    load_names tabsz htable (n :: names) =
      load_names tabsz (loadtable_insert true htable tabsz n).htable names := rfl

theorem load_names_length (tabsz : Nat) (htable : Table) (names : List CBuf) :
    (load_names tabsz htable names).length = htable.length := by
  induction names generalizing htable with
  | nil => rfl
  | cons n names ih => rw [load_names_cons, ih, loadtable_insert_length]

theorem querytable_lookup_load_names {tabsz : Nat} (htab : 0 < tabsz) {htable : Table}
    (hlen : htable.length = tabsz) (names : List CBuf) (n : CBuf) :
    querytable_lookup (load_names tabsz htable names) tabsz n =
      (querytable_lookup htable tabsz n || decide (cstr n ∈ names.map cstr)) := by
  induction names generalizing htable with
  | nil => simp [load_names_nil]
  | cons m names ih =>
    rw [load_names_cons, ih (by rw [loadtable_insert_length]; exact hlen),
      querytable_lookup_insert htab hlen]
    by_cases h1 : cstr m = cstr n
    · simp [h1]
    · have h2 : ¬ cstr n = cstr m := fun e => h1 e.symm
      simp [h1, h2]

theorem total_entries_load_names {tabsz : Nat} (htab : 0 < tabsz) {htable : Table}
    (hlen : htable.length = tabsz) (names : List CBuf)
    (hnew : ∀ n ∈ names, querytable_lookup htable tabsz n = false)
    (hnd : (names.map cstr).Nodup) :
    total_entries (load_names tabsz htable names) = total_entries htable + names.length := by
  induction names generalizing htable with
  | nil => simp [load_names_nil]
  | cons m names ih =>
    rw [List.map_cons, List.nodup_cons] at hnd
    have hm : querytable_lookup htable tabsz m = false := hnew m (List.mem_cons_self _ _)
    rw [load_names_cons, ih (by rw [loadtable_insert_length]; exact hlen) ?_ hnd.2,
      total_entries_insert htab hlen, hm]
    · simp; omega
    · intro n hn
      rw [querytable_lookup_insert htab hlen, hnew n (List.mem_cons_of_mem _ hn)]
      have : cstr m ≠ cstr n := fun e => hnd.1 (e ▸ List.mem_map_of_mem cstr hn)
      simp [this]

/-! ## Chain uniqueness -/

theorem getD_mem_or_nil (htable : Table) (i : Nat) :
    htable.getD i [] ∈ htable ∨ htable.getD i [] = [] := by
  by_cases h : i < htable.length
  · left
    rw [List.getD_eq_getElem _ _ h]
    exact List.getElem_mem h
  · right
    exact List.getD_eq_default _ _ (by omega)

theorem Reachable.nodup {tabsz : Nat} {htable : Table} (h : Reachable tabsz htable) :
    ∀ chain ∈ htable, (chain.map node.DNSname).Nodup := by
  induction h with
  | empty =>
    intro chain hc
    have : chain = [] := List.eq_of_mem_replicate hc
    simp [this]
  | @load malloc line htable _ ih =>
    rw [loadtable_insert_eq]
    by_cases hd : dns_lookup (htable.getD (hash line % tabsz) []) line = []
    · rw [if_neg (not_not.2 hd)]
      cases malloc
      · rw [if_neg (by decide)]
        exact ih
      · rw [if_pos rfl]
        intro chain hc
        rcases List.mem_or_eq_of_mem_set hc with hc | hc
        · exact ih chain hc
        · subst hc
          have hb : ((htable.getD (hash line % tabsz) []).map node.DNSname).Nodup := by
            rcases getD_mem_or_nil htable (hash line % tabsz) with hm | hm
            · exact ih _ hm
            · rw [hm]; simp
          rw [List.map_cons, List.nodup_cons]
          refine ⟨?_, hb⟩
          intro hmem
          obtain ⟨e, he, hname⟩ := List.mem_map.1 hmem
          have := (dns_lookup_eq_nil_iff _ _).1 hd e he
          apply this
          rw [hname, cstr_idem]
    · rw [if_pos hd]
      exact ih

/-! ## The loop of loadtable -/

theorem loadtable_insert_duplicate (malloc : Bool) (htable : Table) (tabsz : Nat) (line : CBuf)
    (hq : querytable_lookup htable tabsz line = true) :
    loadtable_insert malloc htable tabsz line = ⟨.duplicate, htable⟩ := by
  rw [querytable_lookup_eq] at hq
  rw [loadtable_insert_eq, if_pos (by simpa using hq)]

theorem loadtable_insert_inserted (htable : Table) (tabsz : Nat) (line : CBuf)
    (hq : querytable_lookup htable tabsz line = false) :
    (loadtable_insert true htable tabsz line).result = .inserted := by
  rw [loadtable_insert_result, hq]
  simp

theorem loadtable_loop_skip (tabsz : Nat) (malloc : Nat → Bool) (line : CBuf) (rest : List CBuf)
    (htable : Table) (dups : List CBuf) (hl : 0 < line.length)
    (hs : line.getD 0 0 = 10 ∨ line.getD 0 0 = 35) :
    loadtable_loop tabsz malloc (line :: rest) htable dups =
      loadtable_loop tabsz (fun k => malloc (k + 1)) rest htable dups := by
  rw [loadtable_loop, if_pos hl, if_pos hs]

theorem loadtable_loop_new (tabsz : Nat) (malloc : Nat → Bool) (line : CBuf) (rest : List CBuf)
    (htable : Table) (dups : List CBuf) (hl : 0 < line.length)
    (hs : ¬ (line.getD 0 0 = 10 ∨ line.getD 0 0 = 35)) (hm : malloc 0 = true)
    (hq : querytable_lookup htable tabsz (strip_newline line) = false) :
    loadtable_loop tabsz malloc (line :: rest) htable dups =
      loadtable_loop tabsz (fun k => malloc (k + 1)) rest
        (loadtable_insert true htable tabsz (strip_newline line)).htable dups := by
  rw [loadtable_loop, if_pos hl, if_neg hs, hm]
  simp only [loadtable_insert_inserted _ _ _ hq]

theorem loadtable_loop_dup (tabsz : Nat) (malloc : Nat → Bool) (line : CBuf) (rest : List CBuf)
    (htable : Table) (dups : List CBuf) (hl : 0 < line.length)
    (hs : ¬ (line.getD 0 0 = 10 ∨ line.getD 0 0 = 35))
    (hq : querytable_lookup htable tabsz (strip_newline line) = true) :
    loadtable_loop tabsz malloc (line :: rest) htable dups =
      loadtable_loop tabsz (fun k => malloc (k + 1)) rest htable
        (dups ++ [cstr (strip_newline line)]) := by
  rw [loadtable_loop, if_pos hl, if_neg hs]
  simp only [loadtable_insert_duplicate _ _ _ _ hq]

theorem loadtable_loop_all_skipped (tabsz : Nat) (lines : List CBuf)
    (h : ∀ l ∈ lines, l = [10] ∨ l.head? = some 35) (malloc : Nat → Bool) (htable : Table)
    (dups : List CBuf) :
    loadtable_loop tabsz malloc lines htable dups = some ⟨0, htable, dups⟩ := by
  induction lines generalizing malloc with
  | nil => rfl
  | cons l rest ih =>
    have hrest : ∀ l ∈ rest, l = [10] ∨ l.head? = some 35 :=
      fun x hx => h x (List.mem_cons_of_mem _ hx)
    have hl := h l (List.mem_cons_self _ _)
    cases l with
    | nil => simp at hl
    | cons c s =>
      have hs : (c :: s).getD 0 0 = 10 ∨ (c :: s).getD 0 0 = 35 := by
        rcases hl with hl | hl
        · left
          rw [hl]
          rfl
        · right
          simpa using hl
      rw [loadtable_loop_skip _ _ _ _ _ _ (by simp) hs]
      exact ih hrest _

/-! ## Option parsing -/

theorem strtoul_digits_numeral (d : CBuf) (hdig : ∀ c ∈ d, 48 ≤ c.val ∧ c.val ≤ 57) (acc : Nat) :
    strtoul_digits d acc = (d.foldl (fun a c => 10 * a + (c.val - 48)) acc, []) := by
  induction d generalizing acc with
  | nil => rfl
  | cons c s ih =>
    have hc := hdig c (List.mem_cons_self _ _)
    rw [strtoul_digits, if_pos hc, ih (fun x hx => hdig x (List.mem_cons_of_mem _ hx))]
    rfl

theorem strtoul_numeral (d : CBuf) (hd : d ≠ []) (hdig : ∀ c ∈ d, 48 ≤ c.val ∧ c.val ≤ 57) :
    strtoul d =
      if numeral_value d > ULONG_MAX then ⟨ULONG_MAX, [], 34⟩ else ⟨numeral_value d, [], 0⟩ := by
  have hnn : ∀ c ∈ d, c ≠ 0 := by
    intro c hc e
    have := (hdig c hc).1
    rw [e] at this
    simp at this
  cases d with
  | nil => exact absurd rfl hd
  | cons c s =>
    have hc := hdig c (List.mem_cons_self _ _)
    have hsp : isspace c = false := by
      simp only [isspace, decide_eq_false_iff_not]
      omega
    have h45 : c ≠ 45 := by
      intro e
      have : c.val = 45 := by rw [e]; rfl
      omega
    have h43 : c ≠ 43 := by
      intro e
      have : c.val = 43 := by rw [e]; rfl
      omega
    have hdrop : (c :: s).dropWhile isspace = c :: s := by
      simp [List.dropWhile_cons, hsp]
    simp only [strtoul, cstr_of_no_nul _ hnn, hdrop, List.head?_cons, Option.some.injEq, h45,
      h43, or_self, if_false, strtoul_digits_numeral _ hdig, List.length_nil, List.length_cons]
    rw [if_neg (by omega)]
    rfl

theorem parseopts_switch_eFlag (v : ParseVars) (g : Getopt) (h : v.eFlag ≠ 0) :
    (parseopts_switch v g).eFlag ≠ 0 := by
  simp only [parseopts_switch]
  split_ifs <;> simp [h]

theorem foldl_parseopts_switch_eFlag (opts : List Getopt) (v : ParseVars) (h : v.eFlag ≠ 0) :
    (opts.foldl parseopts_switch v).eFlag ≠ 0 := by
  induction opts generalizing v with
  | nil => exact h
  | cons g rest ih => exact ih _ (parseopts_switch_eFlag v g h)

theorem parseopts_of_foldl_eFlag (opts : List Getopt) (tabsz stats : Nat)
    (h : (opts.foldl parseopts_switch
      { eFlag := 0, filename := none, tabsz := tabsz, stats := stats }).eFlag ≠ 0) :
    (parseopts opts tabsz stats).eFlag = 1 := by
  unfold parseopts
  simp only
  split_ifs <;> simp_all

theorem parseopts_switch_small (v : ParseVars) (d : CBuf) (hd : d ≠ [])
    (hdig : ∀ c ∈ d, 48 ≤ c.val ∧ c.val ≤ 57) (hv : numeral_value d < 3) :
    (parseopts_switch v ⟨116, d⟩).eFlag ≠ 0 := by
  have hu : ¬ numeral_value d > ULONG_MAX := by
    unfold ULONG_MAX
    omega
  simp [parseopts_switch, strtoul_numeral d hd hdig, hu, MINTABSZ, hv]

theorem parseopts_switch_good (v : ParseVars) (d : CBuf) (hd : d ≠ [])
    (hdig : ∀ c ∈ d, 48 ≤ c.val ∧ c.val ≤ 57) (h3 : 3 ≤ numeral_value d)
    (hmax : numeral_value d ≤ ULONG_MAX) :
    parseopts_switch v ⟨116, d⟩ = { v with tabsz := numeral_value d } := by
  have hu : ¬ numeral_value d > ULONG_MAX := by omega
  have h3n : ¬ numeral_value d < 3 := by omega
  simp [parseopts_switch, strtoul_numeral d hd hdig, hu, MINTABSZ, h3n]

theorem parseopts_switch_of_good (v : ParseVars) (g : Getopt) (hg : good_option g = true) :
    (parseopts_switch v g).eFlag = v.eFlag ∧
    (v.filename ≠ none → (parseopts_switch v g).filename ≠ none) ∧
    (g.opt = 98 → (parseopts_switch v g).filename ≠ none) ∧
    (g.opt ≠ 116 → (parseopts_switch v g).tabsz = v.tabsz) := by
  simp only [good_option, Bool.or_eq_true, decide_eq_true_eq, Bool.and_eq_true] at hg
  rcases hg with (hg | hg) | ⟨hg, harg⟩
  · have e : parseopts_switch v g = { v with filename := some g.optarg } := by
      simp [parseopts_switch, hg]
    rw [e]
    simp
  · have e : parseopts_switch v g = { v with stats := 1 } := by
      simp [parseopts_switch, hg]
    rw [e]
    simp [hg]
  · simp only [good_tabsz_arg, decide_eq_true_eq, MINTABSZ] at harg
    obtain ⟨hd, hdig, h3, hmax⟩ := harg
    have e : parseopts_switch v g = { v with tabsz := numeral_value g.optarg } := by
      have := parseopts_switch_good v g.optarg hd hdig h3 hmax
      rw [← hg] at this
      exact this
    rw [e]
    simp [hg]

theorem foldl_parseopts_switch_good (opts : List Getopt)
    (h : ∀ g ∈ opts, good_option g = true) (v : ParseVars) :
    (opts.foldl parseopts_switch v).eFlag = v.eFlag ∧
    (v.filename ≠ none → (opts.foldl parseopts_switch v).filename ≠ none) ∧
    ((∃ g ∈ opts, g.opt = 98) → (opts.foldl parseopts_switch v).filename ≠ none) ∧
    ((∀ g ∈ opts, g.opt ≠ 116) → (opts.foldl parseopts_switch v).tabsz = v.tabsz) := by
  induction opts generalizing v with
  | nil => simp
  | cons g rest ih =>
    obtain ⟨s1, s2, s3, s4⟩ := parseopts_switch_of_good v g (h g (List.mem_cons_self _ _))
    obtain ⟨i1, i2, i3, i4⟩ := ih (fun x hx => h x (List.mem_cons_of_mem _ hx))
      (parseopts_switch v g)
    rw [List.foldl_cons]
    refine ⟨i1.trans s1, fun hf => i2 (s2 hf), ?_, ?_⟩
    · rintro ⟨x, hx, hx98⟩
      rcases List.mem_cons.1 hx with hx | hx
      · subst hx
        exact i2 (s3 hx98)
      · exact i3 ⟨x, hx, hx98⟩
    · intro hno
      rw [i4 (fun x hx => hno x (List.mem_cons_of_mem _ hx)),
        s4 (hno g (List.mem_cons_self _ _))]

theorem loadtable_insert_inserted_malloc {malloc : Bool} {htable : Table} {tabsz : Nat}
    {line : CBuf} (h : (loadtable_insert malloc htable tabsz line).result = .inserted) :
    malloc = true := by
  rw [loadtable_insert_eq] at h
  by_cases hd : dns_lookup (htable.getD (hash line % tabsz) []) line = []
  · rw [if_neg (not_not.2 hd)] at h
    cases malloc
    · rw [if_neg (by decide)] at h
      cases h
    · rfl
  · rw [if_pos hd] at h
    cases h

/-! ## Load and query -/

/-- C1: for every table of size at least 3 reachable from the empty table by loads
and every name `n`, if the insert part of `loadtable` (hash modulo size, `dns_lookup`,
`add_front`) inserts `n`, then the lookup part of `querytable` on the resulting table
reports `n` as blocked. -/
theorem query_after_insert (tabsz : Nat) (htab : 3 ≤ tabsz) (htable : Table)
    (hr : Reachable tabsz htable) (malloc : Bool) (n : CBuf)
    (hins : (loadtable_insert malloc htable tabsz n).result = .inserted) :
    querytable_lookup (loadtable_insert malloc htable tabsz n).htable tabsz n = true := by
  have hm : malloc = true := loadtable_insert_inserted_malloc hins
  subst hm
  rw [querytable_lookup_insert (by omega) hr.length_eq]
  simp

/-- Witness for C1: the name `ads.example.com` loaded into a three-bucket table that
already holds `tracker.example.net`. -/
theorem query_after_insert_witness :
    3 ≤ 3 ∧
    Reachable 3 (loadtable_insert true (calloc 3) 3 (ascii "tracker.example.net")).htable ∧
    (loadtable_insert true (loadtable_insert true (calloc 3) 3 (ascii "tracker.example.net")).htable
      3 (ascii "ads.example.com")).result = .inserted ∧
    querytable_lookup
      (loadtable_insert true (loadtable_insert true (calloc 3) 3 (ascii "tracker.example.net")).htable
        3 (ascii "ads.example.com")).htable 3 (ascii "ads.example.com") = true :=
  ⟨by decide, Reachable.load true _ Reachable.empty, by decide,
    query_after_insert 3 (by decide) _ (Reachable.load true _ Reachable.empty) true
      (ascii "ads.example.com") (by decide)⟩

/-- C2: for every table size at least 3, every sequence of names loaded into an
initially empty table, and every name `n` whose string differs from the string of
every loaded name, the lookup part of `querytable` reports `n` as not blocked; in
particular every query on the empty table is not blocked. -/
theorem query_never_loaded (tabsz : Nat) (htab : 3 ≤ tabsz) (names : List CBuf) (n : CBuf)
    (h : ∀ m ∈ names, cstr m ≠ cstr n) :
    querytable_lookup (load_names tabsz (calloc tabsz) names) tabsz n = false ∧
    querytable_lookup (calloc tabsz) tabsz n = false := by
  refine ⟨?_, querytable_lookup_calloc tabsz n⟩
  rw [querytable_lookup_load_names (by omega) (by simp [calloc]), querytable_lookup_calloc]
  simp only [Bool.false_or, decide_eq_false_iff_not, List.mem_map, not_exists, not_and]
  intro m hm e
  exact h m hm e

/-- Witness for C2: the empty string, and a name differing only in letter case or
in a leading blank from a loaded one, are not blocked. -/
theorem query_never_loaded_witness :
    querytable_lookup
      (load_names 3 (calloc 3) [ascii "ads.example.com", ascii "tracker.example.net"]) 3 [] = false ∧
    querytable_lookup
      (load_names 3 (calloc 3) [ascii "ads.example.com", ascii "tracker.example.net"]) 3
      (ascii "Ads.example.com") = false ∧
    querytable_lookup
      (load_names 3 (calloc 3) [ascii "ads.example.com", ascii "tracker.example.net"]) 3
      (ascii " ads.example.com") = false :=
  ⟨(query_never_loaded 3 (by decide) _ [] (by decide)).1,
   (query_never_loaded 3 (by decide) _ (ascii "Ads.example.com") (by decide)).1,
   (query_never_loaded 3 (by decide) _ (ascii " ads.example.com") (by decide)).1⟩

/-- C3: idempotence of load.  For every reachable table of size at least 3 and every
name `n`, loading `n` again after a successful insert takes the duplicate branch,
whatever the allocator would do, leaves the whole table (every bucket, entries and
order) as it was after the first load, and `n` is still reported as blocked. -/
theorem load_twice_duplicate (tabsz : Nat) (htab : 3 ≤ tabsz) (htable : Table)
    (hr : Reachable tabsz htable) (malloc malloc2 : Bool) (n : CBuf)
    (hins : (loadtable_insert malloc htable tabsz n).result = .inserted) :
    loadtable_insert malloc2 (loadtable_insert malloc htable tabsz n).htable tabsz n =
      ⟨.duplicate, (loadtable_insert malloc htable tabsz n).htable⟩ ∧
    querytable_lookup
      (loadtable_insert malloc2 (loadtable_insert malloc htable tabsz n).htable tabsz n).htable
      tabsz n = true := by
  have hm : malloc = true := loadtable_insert_inserted_malloc hins
  subst hm
  have hq : querytable_lookup (loadtable_insert true htable tabsz n).htable tabsz n = true := by
    rw [querytable_lookup_insert (by omega) hr.length_eq]
    simp
  have hd := loadtable_insert_duplicate malloc2 _ tabsz n hq
  rw [hd]
  exact ⟨rfl, hq⟩

/-- Witness for C3: `ads.example.com` loaded twice into a three-bucket table. -/
theorem load_twice_duplicate_witness :
    3 ≤ 3 ∧ Reachable 3 (calloc 3) ∧
    (loadtable_insert true (calloc 3) 3 (ascii "ads.example.com")).result = .inserted ∧
    loadtable_insert true (loadtable_insert true (calloc 3) 3 (ascii "ads.example.com")).htable 3
        (ascii "ads.example.com") =
      ⟨.duplicate, (loadtable_insert true (calloc 3) 3 (ascii "ads.example.com")).htable⟩ :=
  ⟨by decide, Reachable.empty, by decide,
    (load_twice_duplicate 3 (by decide) (calloc 3) Reachable.empty true true
      (ascii "ads.example.com") (by decide)).1⟩

theorem dostats_load_names_nodeCount {tabsz : Nat} (htab : 0 < tabsz) (names : List CBuf)
    (hnd : (names.map cstr).Nodup) :
    (dostats (load_names tabsz (calloc tabsz) names) tabsz).nodeCount = names.length := by
  have hlen : (calloc tabsz).length = tabsz := by simp [calloc]
  rw [dostats_nodeCount (by rw [load_names_length]; exact hlen),
    total_entries_load_names htab hlen names
      (fun n _ => querytable_lookup_calloc tabsz n) hnd,
    total_entries_calloc]
  omega

/-- C4: for every table size at least 3 and every list of pairwise distinct names
loaded into an empty table, the total entry count computed by `dostats` is the number
of names, whatever the table size. -/
theorem dostats_total_of_distinct (tabsz : Nat) (htab : 3 ≤ tabsz) (names : List CBuf)
    (hnd : (names.map cstr).Nodup) :
    (dostats (load_names tabsz (calloc tabsz) names) tabsz).nodeCount = names.length :=
  dostats_load_names_nodeCount (by omega) names hnd

/-- Witness for C4: three distinct names in a three-bucket table. -/
theorem dostats_total_of_distinct_witness :
    3 ≤ 3 ∧
    (([ascii "ads.example.com", ascii "tracker.example.net", ascii "a"] : List CBuf).map
      cstr).Nodup ∧
    (dostats (load_names 3 (calloc 3)
      [ascii "ads.example.com", ascii "tracker.example.net", ascii "a"]) 3).nodeCount = 3 :=
  ⟨by decide, by decide, dostats_total_of_distinct 3 (by decide) _ (by decide)⟩

/-! ## Hash -/

/-- C5: for every byte string `s` without NUL bytes, `hash s` is the left fold over
the bytes of `s`, in order, of the step `acc := (c + (acc << 6) + (acc << 16) - acc)
mod 2 ^ 64` starting from `0`; the hash of the empty string is `0`. -/
theorem hash_eq_spec_hash (s : List Byte) (hs : ∀ c ∈ s, c ≠ 0) :
    hash s = List.foldl (fun acc c => (c.val + (acc <<< 6) + (acc <<< 16) - acc) % 2 ^ 64) 0 s ∧
    hash s = spec_hash s ∧ hash [] = 0 :=
  ⟨hash_loop_eq_foldl s hs 0, hash_loop_eq_foldl s hs 0, rfl⟩

/-- Witness for C5: the string `ads.example.com`. -/
theorem hash_eq_spec_hash_witness :
    (∀ c ∈ ascii "ads.example.com", c ≠ 0) ∧
    hash (ascii "ads.example.com") = spec_hash (ascii "ads.example.com") :=
  ⟨by decide, (hash_eq_spec_hash (ascii "ads.example.com") (by decide)).2.1⟩

/-! ## Table size validation -/

/-- C6: for a `-t` argument that is a decimal numeral of value `v`: when `v < 3`
(`0`, `1` or `2`), `parseopts` returns `1` whatever the other options are, and `main`
returns `EXIT_FAILURE` without building a table; when `3 ≤ v ≤ ULONG_MAX`, with `-b`
present and no bad option, `parseopts` returns `0`, and the table size is `v` when no
later `-t` replaces it. -/
theorem parseopts_tabsz (d : CBuf) (hd : d ≠ []) (hdig : ∀ c ∈ d, 48 ≤ c.val ∧ c.val ≤ 57)
    (before after : List Getopt) (tabsz stats : Nat) :
    (numeral_value d < 3 →
      (parseopts (before ++ ⟨116, d⟩ :: after) tabsz stats).eFlag = 1 ∧
      ∀ callocOk malloc file stdin,
        main (before ++ ⟨116, d⟩ :: after) callocOk malloc file stdin =
          some ⟨1, none, none, []⟩) ∧
    (3 ≤ numeral_value d → numeral_value d ≤ ULONG_MAX →
      (∀ g ∈ before ++ after, good_option g = true) →
      (∃ g ∈ before ++ after, g.opt = 98) →
      (parseopts (before ++ ⟨116, d⟩ :: after) tabsz stats).eFlag = 0 ∧
      ((∀ g ∈ after, g.opt ≠ 116) →
        (parseopts (before ++ ⟨116, d⟩ :: after) tabsz stats).tabsz = numeral_value d)) := by
  constructor
  · intro hv
    have key : ∀ t s, (parseopts (before ++ ⟨116, d⟩ :: after) t s).eFlag = 1 := by
      intro t s
      apply parseopts_of_foldl_eFlag
      rw [List.foldl_append, List.foldl_cons]
      exact foldl_parseopts_switch_eFlag _ _ (parseopts_switch_small _ d hd hdig hv)
    refine ⟨key tabsz stats, ?_⟩
    intro callocOk malloc file stdin
    simp [main, key TABSZ 0]
  · intro h3 hmax hgood hb
    have hbefore : ∀ g ∈ before, good_option g = true :=
      fun g hg => hgood g (List.mem_append_left _ hg)
    have hafter : ∀ g ∈ after, good_option g = true :=
      fun g hg => hgood g (List.mem_append_right _ hg)
    obtain ⟨b1, _, b3, _⟩ := foldl_parseopts_switch_good before hbefore
      { eFlag := 0, filename := none, tabsz := tabsz, stats := stats }
    obtain ⟨a1, a2, a3, a4⟩ := foldl_parseopts_switch_good after hafter
      (parseopts_switch (before.foldl parseopts_switch
        { eFlag := 0, filename := none, tabsz := tabsz, stats := stats }) ⟨116, d⟩)
    rw [parseopts_switch_good _ d hd hdig h3 hmax] at a1 a2 a3 a4
    have hfile : (List.foldl parseopts_switch
        { eFlag := 0, filename := none, tabsz := tabsz, stats := stats }
        (before ++ ⟨116, d⟩ :: after)).filename ≠ none := by
      rw [List.foldl_append, List.foldl_cons, parseopts_switch_good _ d hd hdig h3 hmax]
      obtain ⟨g, hg, hg98⟩ := hb
      rcases List.mem_append.1 hg with hg | hg
      · exact a2 (b3 ⟨g, hg, hg98⟩)
      · exact a3 ⟨g, hg, hg98⟩
    have hflag : (List.foldl parseopts_switch
        { eFlag := 0, filename := none, tabsz := tabsz, stats := stats }
        (before ++ ⟨116, d⟩ :: after)).eFlag = 0 := by
      rw [List.foldl_append, List.foldl_cons, parseopts_switch_good _ d hd hdig h3 hmax, a1]
      exact b1
    have htabsz : (∀ g ∈ after, g.opt ≠ 116) → (List.foldl parseopts_switch
        { eFlag := 0, filename := none, tabsz := tabsz, stats := stats }
        (before ++ ⟨116, d⟩ :: after)).tabsz = numeral_value d := by
      intro hno
      rw [List.foldl_append, List.foldl_cons, parseopts_switch_good _ d hd hdig h3 hmax, a4 hno]
    unfold parseopts
    simp only [hfile, if_false, hflag, ne_eq, not_true_eq_false, true_and]
    exact htabsz

/-- Witness for C6: `-b f -t 2` is rejected; `-t 1873 -b f -t 3 -s` gives a table of
size 3. -/
theorem parseopts_tabsz_witness :
    (parseopts [⟨98, ascii "f"⟩, ⟨116, ascii "2"⟩] TABSZ 0).eFlag = 1 ∧
    (parseopts [⟨116, ascii "1873"⟩, ⟨98, ascii "f"⟩, ⟨116, ascii "3"⟩, ⟨115, []⟩] TABSZ 0).eFlag
      = 0 ∧
    (parseopts [⟨116, ascii "1873"⟩, ⟨98, ascii "f"⟩, ⟨116, ascii "3"⟩, ⟨115, []⟩] TABSZ 0).tabsz
      = 3 :=
  ⟨((parseopts_tabsz (ascii "2") (by decide) (by decide) [⟨98, ascii "f"⟩] [] TABSZ 0).1
      (by decide)).1,
   ((parseopts_tabsz (ascii "3") (by decide) (by decide)
      [⟨116, ascii "1873"⟩, ⟨98, ascii "f"⟩] [⟨115, []⟩] TABSZ 0).2
      (by decide) (by decide) (by decide) (by decide)).1,
   ((parseopts_tabsz (ascii "3") (by decide) (by decide)
      [⟨116, ascii "1873"⟩, ⟨98, ascii "f"⟩] [⟨115, []⟩] TABSZ 0).2
      (by decide) (by decide) (by decide) (by decide)).2 (by decide)⟩

/-! ## Loading a block list -/

/-- C7: scenario.  For the block list with the lines `ads.example.com`, `# comment`,
a blank line, `tracker.example.net`, `ads.example.com`, and every table size at least
3, `loadtable` returns `0` having reported exactly one duplicate, `ads.example.com`;
`dostats` counts 2 entries in the table it leaves; and `querytable` prints blocked for
`ads.example.com` and `tracker.example.net` and not blocked for `safe.example.org`. -/
theorem scenario_blocklist (tabsz : Nat) (htab : 3 ≤ tabsz) :
    ∃ htable,
      loadtable (fun _ => true) (calloc tabsz) tabsz
        (some [ascii "ads.example.com\n", ascii "# comment\n", ascii "\n",
          ascii "tracker.example.net\n", ascii "ads.example.com\n"]) =
        some ⟨0, htable, [ascii "ads.example.com"]⟩ ∧
      (dostats htable tabsz).nodeCount = 2 ∧
      querytable htable tabsz
        [ascii "ads.example.com\n", ascii "tracker.example.net\n", ascii "safe.example.org\n"] =
        [⟨ascii "ads.example.com", true⟩, ⟨ascii "tracker.example.net", true⟩,
          ⟨ascii "safe.example.org", false⟩] := by
  have h0 : 0 < tabsz := by omega
  have hlen : (calloc tabsz).length = tabsz := by simp [calloc]
  have hq : ∀ n, querytable_lookup
      (load_names tabsz (calloc tabsz)
        [strip_newline (ascii "ads.example.com\n"),
          strip_newline (ascii "tracker.example.net\n")]) tabsz n =
      decide (cstr n ∈ [ascii "ads.example.com", ascii "tracker.example.net"]) := by
    intro n
    rw [querytable_lookup_load_names h0 hlen, querytable_lookup_calloc]
    rfl
  refine ⟨load_names tabsz (calloc tabsz)
    [strip_newline (ascii "ads.example.com\n"), strip_newline (ascii "tracker.example.net\n")],
    ?_, ?_, ?_⟩
  · unfold loadtable
    simp only
    rw [loadtable_loop_new _ _ _ _ _ _ (by decide) (by decide) rfl
        (querytable_lookup_calloc tabsz _),
      loadtable_loop_skip _ _ _ _ _ _ (by decide) (by decide),
      loadtable_loop_skip _ _ _ _ _ _ (by decide) (by decide),
      loadtable_loop_new _ _ _ _ _ _ (by decide) (by decide) rfl ?_,
      loadtable_loop_dup _ _ _ _ _ _ (by decide) (by decide) ?_]
    · rfl
    · exact (hq _).trans (by decide)
    · rw [querytable_lookup_insert h0 hlen, querytable_lookup_calloc]
      decide
  · exact dostats_load_names_nodeCount h0 _ (by decide)
  · simp only [querytable, hq]
    decide

/-- Witness for C7: the scenario at the default table size 1873. -/
theorem scenario_blocklist_witness :
    3 ≤ TABSZ ∧
    ∃ htable,
      loadtable (fun _ => true) (calloc TABSZ) TABSZ
        (some [ascii "ads.example.com\n", ascii "# comment\n", ascii "\n",
          ascii "tracker.example.net\n", ascii "ads.example.com\n"]) =
        some ⟨0, htable, [ascii "ads.example.com"]⟩ ∧
      (dostats htable TABSZ).nodeCount = 2 ∧
      querytable htable TABSZ
        [ascii "ads.example.com\n", ascii "tracker.example.net\n", ascii "safe.example.org\n"] =
        [⟨ascii "ads.example.com", true⟩, ⟨ascii "tracker.example.net", true⟩,
          ⟨ascii "safe.example.org", false⟩] :=
  ⟨by decide, scenario_blocklist TABSZ (by decide)⟩

/-- C8: for every block list in which each line is either blank (just a newline) or
begins with `#`, `loadtable` returns `0` and leaves every bucket empty, so `dostats`
reports 0 total entries. -/
theorem loadtable_comments_only (tabsz : Nat) (malloc : Nat → Bool) (lines : List CBuf)
    (h : ∀ l ∈ lines, l = [10] ∨ l.head? = some 35) :
    ∃ out, loadtable malloc (calloc tabsz) tabsz (some lines) = some out ∧ out.ret = 0 ∧
      (∀ chain ∈ out.htable, chain = []) ∧ (dostats out.htable tabsz).nodeCount = 0 := by
  refine ⟨⟨0, calloc tabsz, []⟩, loadtable_loop_all_skipped tabsz lines h malloc _ _, rfl, ?_, ?_⟩
  · intro chain hc
    exact List.eq_of_mem_replicate hc
  · rw [dostats_nodeCount (by simp [calloc]), total_entries_calloc]

/-- Witness for C8: a blank line, a comment line and an unterminated `#` line. -/
theorem loadtable_comments_only_witness :
    (∀ l ∈ [ascii "\n", ascii "# comment\n", ascii "#"], l = [10] ∨ l.head? = some 35) ∧
    ∃ out, loadtable (fun _ => true) (calloc 3) 3
        (some [ascii "\n", ascii "# comment\n", ascii "#"]) = some out ∧ out.ret = 0 ∧
      (∀ chain ∈ out.htable, chain = []) ∧ (dostats out.htable 3).nodeCount = 0 :=
  ⟨by decide, loadtable_comments_only 3 (fun _ => true) _ (by decide)⟩

/-! ## Chain invariant and lookup -/

/-- C9: chain uniqueness invariant.  In every table reachable from the empty table by
any sequence of loads, for any size at least 3, no chain holds two entries with the
same name. -/
theorem chain_entries_unique (tabsz : Nat) (_htab : 3 ≤ tabsz) (htable : Table)
    (hr : Reachable tabsz htable) :
    ∀ chain ∈ htable, (chain.map node.DNSname).Nodup :=
  hr.nodup

/-- Witness for C9: the table after loading `a`, `d` and `a` into three buckets. -/
theorem chain_entries_unique_witness :
    3 ≤ 3 ∧
    Reachable 3 (loadtable_insert true (loadtable_insert true
      (loadtable_insert true (calloc 3) 3 (ascii "a")).htable 3 (ascii "d")).htable 3
      (ascii "a")).htable ∧
    ∀ chain ∈ (loadtable_insert true (loadtable_insert true
      (loadtable_insert true (calloc 3) 3 (ascii "a")).htable 3 (ascii "d")).htable 3
      (ascii "a")).htable, (chain.map node.DNSname).Nodup :=
  ⟨by decide, Reachable.load true _ (Reachable.load true _ (Reachable.load true _ Reachable.empty)),
    chain_entries_unique 3 (by decide) _
      (Reachable.load true _ (Reachable.load true _ (Reachable.load true _ Reachable.empty)))⟩

/-- C10: for every chain and every name, `dns_lookup` returns a non-`NULL` node iff
some entry of the chain holds the same string as the name; the node returned is then
the first node of the chain whose name equals the query, followed by the unchanged
rest of the chain, and the chain itself is the nodes before it followed by it. -/
theorem dns_lookup_first_match (front : Chain) (DNSname : CBuf) :
    (dns_lookup front DNSname ≠ [] ↔ ∃ e ∈ front, cstr e.DNSname = cstr DNSname) ∧
    (∀ found rest, dns_lookup front DNSname = found :: rest →
      ∃ skipped, front = skipped ++ found :: rest ∧ cstr found.DNSname = cstr DNSname ∧
        ∀ e ∈ skipped, cstr e.DNSname ≠ cstr DNSname) := by
  constructor
  · rw [ne_eq, dns_lookup_eq_nil_iff]
    push_neg
    rfl
  · intro found rest h
    exact dns_lookup_split front DNSname found rest h

/-! ## Front insertion -/

/-- C11: for every chain and name, `add_front` with a successful allocation returns
the chain made of a new entry holding the name followed by the old chain, unchanged
and in the same order; it makes no duplicate check, so the name occurs once more in
the result than in the chain passed in (twice when the chain already held it). -/
theorem add_front_prepends (front : Chain) (DNSname : CBuf) :
    add_front true front DNSname = some ({ DNSname := cstr DNSname } :: front) ∧
    ∀ chain, add_front true front DNSname = some chain →
      chain.count { DNSname := cstr DNSname } = front.count { DNSname := cstr DNSname } + 1 ∧
      chain.tail = front := by
  have h : add_front true front DNSname = some ({ DNSname := cstr DNSname } :: front) := by
    simp [add_front, strdup]
  refine ⟨h, ?_⟩
  intro chain hc
  rw [h] at hc
  injection hc with hc
  subst hc
  simp

/-- C12, the code at the failing input: when the node allocation fails, `add_front`
stores through the null pointer before it tests it, so neither `add_front` nor
`loadtable` returns. -/
theorem add_front_failed_malloc_faults :
    (∀ front DNSname, add_front false front DNSname = none) ∧
    add_front false [] (ascii "ads.example.com") = none ∧
    (loadtable_insert false (calloc 3) 3 (ascii "ads.example.com")).result = .fault ∧
    loadtable (fun _ => false) (calloc 3) 3 (some [ascii "ads.example.com\n"]) = none := by
  refine ⟨fun _ _ => rfl, ?_⟩
  decide

/-! ## Statistics -/

theorem dostats_body_eq (v : StatsVars) (chain : Chain) :
    dostats_body v chain =
      if chain = [] then v
      else { nodeCount := v.nodeCount + chain.length,
             longestChain := max v.longestChain chain.length,
             shortestChain := min v.shortestChain chain.length,
             count := chain.length } := by
  unfold dostats_body
  by_cases h : chain = []
  · simp [h]
  · simp only [h, if_false, dostats_walk_eq]
    by_cases h1 : chain.length < v.shortestChain <;> by_cases h2 : v.longestChain < chain.length
    all_goals simp [h1, h2]
    all_goals omega

theorem dostats_body_longestChain (v : StatsVars) (chain : Chain) :
    (dostats_body v chain).longestChain = max v.longestChain chain.length := by
  rw [dostats_body_eq]
  by_cases h : chain = []
  · simp [h]
  · simp [h]

theorem dostats_body_shortestChain (v : StatsVars) (chain : Chain) :
    (dostats_body v chain).shortestChain =
      if chain = [] then v.shortestChain else min v.shortestChain chain.length := by
  rw [dostats_body_eq]
  by_cases h : chain = [] <;> simp [h]

theorem foldl_dostats_body_longestChain (htable : Table) (v : StatsVars) :
    (htable.foldl dostats_body v).longestChain =
      (htable.map List.length).foldl max v.longestChain := by
  induction htable generalizing v with
  | nil => rfl
  | cons chain rest ih =>
    rw [List.foldl_cons, ih, dostats_body_longestChain]
    rfl

theorem foldl_dostats_body_shortestChain (htable : Table) (v : StatsVars) :
    (htable.foldl dostats_body v).shortestChain =
      ((htable.filter (fun c => c ≠ [])).map List.length).foldl min v.shortestChain := by
  induction htable generalizing v with
  | nil => rfl
  | cons chain rest ih =>
    rw [List.foldl_cons, ih, dostats_body_shortestChain]
    by_cases h : chain = []
    · simp [h]
    · simp [h, List.filter_cons]

theorem foldl_max_spec (l : List Nat) (a : Nat) :
    a ≤ l.foldl max a ∧ (∀ x ∈ l, x ≤ l.foldl max a) ∧ (l.foldl max a = a ∨ l.foldl max a ∈ l) := by
  induction l generalizing a with
  | nil => simp
  | cons x rest ih =>
    obtain ⟨h1, h2, h3⟩ := ih (max a x)
    rw [List.foldl_cons]
    refine ⟨le_trans (le_max_left a x) h1, ?_, ?_⟩
    · intro y hy
      rcases List.mem_cons.1 hy with hy | hy
      · rw [hy]
        exact le_trans (le_max_right a x) h1
      · exact h2 y hy
    · rcases h3 with h3 | h3
      · rcases le_total a x with hax | hax
        · right
          rw [h3, max_eq_right hax]
          exact List.mem_cons_self _ _
        · left
          rw [h3, max_eq_left hax]
      · right
        exact List.mem_cons_of_mem _ h3

theorem foldl_min_spec (l : List Nat) (a : Nat) :
    l.foldl min a ≤ a ∧ (∀ x ∈ l, l.foldl min a ≤ x) ∧ (l.foldl min a = a ∨ l.foldl min a ∈ l) := by
  induction l generalizing a with
  | nil => simp
  | cons x rest ih =>
    obtain ⟨h1, h2, h3⟩ := ih (min a x)
    rw [List.foldl_cons]
    refine ⟨le_trans h1 (min_le_left a x), ?_, ?_⟩
    · intro y hy
      rcases List.mem_cons.1 hy with hy | hy
      · rw [hy]
        exact le_trans h1 (min_le_right a x)
      · exact h2 y hy
    · rcases h3 with h3 | h3
      · rcases le_total a x with hax | hax
        · left
          rw [h3, min_eq_left hax]
        · right
          rw [h3, min_eq_right hax]
          exact List.mem_cons_self _ _
      · right
        exact List.mem_cons_of_mem _ h3

theorem dostats_eq_foldl (htable : Table) :
    dostats htable htable.length =
      { tabsz := htable.length,
        nodeCount := total_entries htable,
        longestChain := (htable.map List.length).foldl max 0,
        shortestChain := ((htable.filter (fun c => c ≠ [])).map List.length).foldl min 999999 } := by
  unfold dostats
  simp only
  rw [foldl_range_getD dostats_body [] htable, foldl_dostats_body_nodeCount,
    foldl_dostats_body_longestChain, foldl_dostats_body_shortestChain]
  simp

/-- C13, the code at the failing input: on a table of three empty chains `dostats`
reports the seed `999999` as the shortest chain, above the longest chain `0`; the same
seed is reported for an all-empty table of any size. -/
theorem dostats_all_empty_shortest :
    (dostats (calloc 3) 3).shortestChain = 999999 ∧ (dostats (calloc 3) 3).longestChain = 0 ∧
    (dostats [[], [], []] 3).shortestChain ≠ 0 ∧
    ∀ tabsz, (dostats (calloc tabsz) tabsz).shortestChain = 999999 := by
  refine ⟨by decide, by decide, by decide, ?_⟩
  intro tabsz
  have h := dostats_eq_foldl (calloc tabsz)
  have hlen : (calloc tabsz).length = tabsz := by simp [calloc]
  rw [hlen] at h
  rw [h]
  have hf : (calloc tabsz).filter (fun c => c ≠ []) = [] := by
    rw [List.filter_eq_nil_iff]
    intro c hc
    simp [List.eq_of_mem_replicate hc]
  simp only [hf]
  rfl

/-- C14: for every table, `dostats` reports the number of buckets as the size, the
sum of the lengths of all chains as the total, and the maximum chain length over all
buckets as the longest chain: no chain is longer, some chain has that length when a
chain is non-empty, and it is `0` when every chain is empty.  The result is a function
of the table alone; no bucket is written. -/
theorem dostats_size_total_longest (htable : Table) :
    (dostats htable htable.length).tabsz = htable.length ∧
    (dostats htable htable.length).nodeCount = (htable.map List.length).sum ∧
    (dostats htable htable.length).longestChain = (htable.map List.length).foldl max 0 ∧
    (∀ chain ∈ htable, chain.length ≤ (dostats htable htable.length).longestChain) ∧
    ((∃ chain ∈ htable, chain ≠ []) →
      ∃ chain ∈ htable, chain.length = (dostats htable htable.length).longestChain) ∧
    ((∀ chain ∈ htable, chain = []) → (dostats htable htable.length).longestChain = 0) := by
  rw [dostats_eq_foldl]
  obtain ⟨_, h2, h3⟩ := foldl_max_spec (htable.map List.length) 0
  have hle : ∀ chain ∈ htable, chain.length ≤ (htable.map List.length).foldl max 0 :=
    fun chain hc => h2 _ (List.mem_map_of_mem _ hc)
  refine ⟨rfl, rfl, rfl, hle, ?_, ?_⟩
  · rintro ⟨c, hc, hne⟩
    rcases h3 with h3 | h3
    · have := hle c hc
      have hpos : 0 < c.length := List.length_pos.2 hne
      simp only at h3 this
      omega
    · obtain ⟨c2, hc2, hlen⟩ := List.mem_map.1 h3
      exact ⟨c2, hc2, hlen⟩
  · intro hall
    rcases h3 with h3 | h3
    · exact h3
    · obtain ⟨c2, hc2, hlen⟩ := List.mem_map.1 h3
      simp only
      rw [← hlen, hall c2 hc2]
      rfl

/-! ## Teardown -/

theorem deleteTable_loop_wide (htable : Table) (tabsz : Nat) (hw : 2 ^ 32 ≤ tabsz) (fuel : Nat) :
    ∀ i released, i < 2 ^ 32 → deleteTable_loop htable tabsz fuel i released = none := by
  induction fuel with
  | zero => intro i released _; rfl
  | succ fuel ih =>
    intro i released hi
    rw [deleteTable_loop, if_pos (by omega)]
    exact ih _ _ (Nat.mod_lt _ (by decide))

theorem deleteTable_loop_narrow (htable : Table) (tabsz : Nat) (hn : tabsz < 2 ^ 32) (n : Nat) :
    ∀ i released fuel, i + n = tabsz → n < fuel →
      deleteTable_loop htable tabsz fuel i released =
        some (released ++ (List.range' i n).map (fun j => (j, htable.getD j []))) := by
  induction n with
  | zero =>
    intro i released fuel hi hf
    obtain ⟨f, rfl⟩ : ∃ f, fuel = f + 1 := ⟨fuel - 1, by omega⟩
    rw [deleteTable_loop, if_neg (by omega)]
    simp
  | succ n ih =>
    intro i released fuel hi hf
    obtain ⟨f, rfl⟩ : ∃ f, fuel = f + 1 := ⟨fuel - 1, by omega⟩
    rw [deleteTable_loop, if_pos (by omega), Nat.mod_eq_of_lt (by omega),
      ih (i + 1) _ f (by omega) (by omega)]
    simp [List.range'_succ]

/-- C15, the code at the failing input: for a table of `2 ^ 32` buckets (`-t
4294967296`) the 32-bit counter of `deleteTable` wraps to `0` before it can reach
`tabsz`, so the bucket loop never exits, whatever the table holds and however many
loop tests are allowed; for the size `2 ^ 32 - 1` it exits, after one pass over
each bucket. -/
theorem deleteTable_wide_never_exits :
    (∀ fuel htable, deleteTable fuel htable (2 ^ 32) = none) ∧
    (∀ htable, deleteTable (2 ^ 32) htable (2 ^ 32 - 1) =
      some ((List.range' 0 (2 ^ 32 - 1)).map (fun j => (j, htable.getD j [])))) := by
  constructor
  · intro fuel htable
    exact deleteTable_loop_wide htable _ (le_refl _) fuel 0 [] (by decide)
  · intro htable
    have := deleteTable_loop_narrow htable (2 ^ 32 - 1) (by decide) (2 ^ 32 - 1) 0 [] (2 ^ 32)
      (by decide) (by decide)
    simpa [deleteTable] using this

/-! ## Line trimming -/

theorem strchr_absent (line : CBuf) (ch : Byte) (hch : ch ≠ 0) (h : ch ∉ line) :
    strchr line ch = none := by
  induction line with
  | nil => simp [strchr, hch]
  | cons c s ih =>
    have hc : c ≠ ch := fun e => h (e ▸ List.mem_cons_self _ _)
    have hs : ch ∉ s := fun e => h (List.mem_cons_of_mem _ e)
    rw [strchr, if_neg hc, ih hs]
    by_cases h0 : c = 0 <;> simp [h0]

theorem strchr_last (body : CBuf) (ch : Byte) (h0 : ∀ c ∈ body, c ≠ 0) (h : ch ∉ body) :
    strchr (body ++ [ch]) ch = some body.length := by
  induction body with
  | nil => simp [strchr]
  | cons c s ih =>
    have hc : c ≠ ch := fun e => h (e ▸ List.mem_cons_self _ _)
    have hs : ch ∉ s := fun e => h (List.mem_cons_of_mem _ e)
    have hc0 : c ≠ 0 := h0 c (List.mem_cons_self _ _)
    have hs0 : ∀ d ∈ s, d ≠ 0 := fun d hd => h0 d (List.mem_cons_of_mem _ hd)
    rw [List.cons_append, strchr, if_neg hc, if_neg hc0, ih hs0 hs]
    rfl

theorem cstr_append_nul (body : CBuf) (h0 : ∀ c ∈ body, c ≠ 0) (rest : CBuf) :
    cstr (body ++ 0 :: rest) = body := by
  induction body with
  | nil => simp [cstr_cons]
  | cons c s ih =>
    have hc0 : c ≠ 0 := h0 c (List.mem_cons_self _ _)
    have hs0 : ∀ d ∈ s, d ≠ 0 := fun d hd => h0 d (List.mem_cons_of_mem _ hd)
    rw [List.cons_append, cstr_cons, if_neg hc0, ih hs0]

/-- C16: line trimming.  For every line as `getline` delivers it (no NUL byte, at
most one newline and only as its last byte), the `strchr` truncation of `loadtable`
and `querytable` leaves the string that is the line without that one trailing newline
when there is one, and leaves the line as it is otherwise; every other byte stays. -/
theorem strip_newline_trims (line : CBuf) (hnn : ∀ c ∈ line, c ≠ 0) :
    (∀ body, line = body ++ [10] → 10 ∉ body →
      strip_newline line = body ++ [0] ∧ cstr (strip_newline line) = body) ∧
    (10 ∉ line → strip_newline line = line ∧ cstr (strip_newline line) = line) := by
  constructor
  · intro body hl hb
    subst hl
    have hb0 : ∀ c ∈ body, c ≠ 0 := fun c hc => hnn c (List.mem_append_left _ hc)
    have hs : strip_newline (body ++ [10]) = body ++ [0] := by
      simp [strip_newline, strchr_last body 10 hb0 hb]
    rw [hs]
    exact ⟨rfl, cstr_append_nul body hb0 []⟩
  · intro hno
    have hs : strip_newline line = line := by
      simp [strip_newline, strchr_absent line 10 (by decide) hno]
    rw [hs]
    exact ⟨rfl, cstr_of_no_nul line hnn⟩

/-- Witness for C16: a line with blanks around the name and a carriage return before
the newline keeps all of them; a last line without newline is kept whole. -/
theorem strip_newline_trims_witness :
    cstr (strip_newline (ascii " ads.example.com \r\n")) = ascii " ads.example.com \r" ∧
    cstr (strip_newline (ascii "ads.example.com ")) = ascii "ads.example.com " :=
  ⟨((strip_newline_trims (ascii " ads.example.com \r\n") (by decide)).1
      (ascii " ads.example.com \r") (by decide) (by decide)).2,
   ((strip_newline_trims (ascii "ads.example.com ") (by decide)).2 (by decide)).2⟩

/-! ## The hash step as a multiplication -/

/-- C20: the shift-based hash step is multiplication by 65599.  For every accumulator
`h` and byte `c`, both the C expression with its 64-bit wrap at each operation and
`(c + (h << 6) + (h << 16) - h) mod 2 ^ 64` equal `(65599 * h + c) mod 2 ^ 64`; hence
for every byte string `s` without NUL and byte `c ≠ 0`,
`hash (s ++ [c]) = (65599 * hash s + c) mod 2 ^ 64`; for a buffer with a NUL the same
holds of the string it holds. -/
theorem hash_step_mul_65599 (h : Nat) (s : List Byte) (hs : ∀ x ∈ s, x ≠ 0) (c : Byte)
    (hc : c ≠ 0) :
    sub64 (add64 (add64 c.val (shl64 h 6)) (shl64 h 16)) h = (65599 * h + c.val) % 2 ^ 64 ∧
    (c.val + (h <<< 6) + (h <<< 16) - h) % 2 ^ 64 = (65599 * h + c.val) % 2 ^ 64 ∧
    hash (s ++ [c]) = (65599 * hash s + c.val) % 2 ^ 64 ∧
    ∀ buf : CBuf, hash (cstr buf ++ [c]) = (65599 * hash buf + c.val) % 2 ^ 64 := by
  have step : ∀ a : Nat, spec_hash_step a c = (65599 * a + c.val) % 2 ^ 64 := by
    intro a
    simp only [spec_hash_step, Nat.shiftLeft_eq]
    omega
  have key : ∀ t : List Byte, (∀ x ∈ t, x ≠ 0) →
      hash (t ++ [c]) = (65599 * hash t + c.val) % 2 ^ 64 := by
    intro t ht
    have htc : ∀ x ∈ t ++ [c], x ≠ 0 := by
      intro x hx
      rcases List.mem_append.1 hx with hx | hx
      · exact ht x hx
      · rw [List.mem_singleton.1 hx]
        exact hc
    unfold hash
    rw [hash_loop_eq_foldl _ htc, List.foldl_append, List.foldl_cons, List.foldl_nil, step,
      hash_loop_eq_foldl _ ht]
  refine ⟨(hash_step_eq h c).trans (step h), step h, key s hs, ?_⟩
  intro buf
  rw [key (cstr buf) (cstr_no_nul buf), hash_cstr]

/-- Witness for C20: appending `m` to `ads.example.co`. -/
theorem hash_step_mul_65599_witness :
    hash (ascii "ads.example.co" ++ [109]) =
      (65599 * hash (ascii "ads.example.co") + 109) % 2 ^ 64 :=
  (hash_step_mul_65599 0 (ascii "ads.example.co") (by decide) 109 (by decide)).2.2.1

/-! ## Frame of a load -/

theorem loadtable_insert_false (htable : Table) (tabsz : Nat) (line : CBuf) :
    (loadtable_insert false htable tabsz line).htable = htable := by
  rw [loadtable_insert_eq]
  by_cases hd : dns_lookup (htable.getD (hash line % tabsz) []) line = []
  · rw [if_neg (not_not.2 hd), if_neg (by decide)]
  · rw [if_pos hd]

theorem loadtable_insert_getD_ne (malloc : Bool) (htable : Table) (tabsz : Nat) (line : CBuf)
    (i : Nat) (hi : i ≠ hash line % tabsz) :
    (loadtable_insert malloc htable tabsz line).htable.getD i [] = htable.getD i [] := by
  rw [loadtable_insert_eq]
  by_cases hd : dns_lookup (htable.getD (hash line % tabsz) []) line = []
  · rw [if_neg (not_not.2 hd)]
    cases malloc
    · rw [if_neg (by decide)]
    · rw [if_pos rfl]
      simp only [List.getD_eq_getElem?_getD]
      rw [List.getElem?_set_ne (fun e => hi e.symm)]
  · rw [if_pos hd]

theorem querytable_lookup_insert_mono {tabsz : Nat} (htab : 0 < tabsz) {htable : Table}
    (hlen : htable.length = tabsz) (malloc : Bool) (m n : CBuf)
    (h : querytable_lookup htable tabsz n = true) :
    querytable_lookup (loadtable_insert malloc htable tabsz m).htable tabsz n = true := by
  cases malloc
  · rw [loadtable_insert_false]
    exact h
  · rw [querytable_lookup_insert htab hlen, h]
    rfl

theorem load_steps_length (tabsz : Nat) (htable : Table) (steps : List (Bool × CBuf)) :
    (load_steps tabsz htable steps).length = htable.length := by
  induction steps generalizing htable with
  | nil => rfl
  | cons s rest ih =>
    show (load_steps tabsz (loadtable_insert s.1 htable tabsz s.2).htable rest).length = _
    rw [ih, loadtable_insert_length]

theorem querytable_lookup_load_steps_mono {tabsz : Nat} (htab : 0 < tabsz) {htable : Table}
    (hlen : htable.length = tabsz) (steps : List (Bool × CBuf)) (n : CBuf)
    (h : querytable_lookup htable tabsz n = true) :
    querytable_lookup (load_steps tabsz htable steps) tabsz n = true := by
  induction steps generalizing htable with
  | nil => exact h
  | cons s rest ih =>
    show querytable_lookup (load_steps tabsz (loadtable_insert s.1 htable tabsz s.2).htable rest)
      tabsz n = true
    exact ih (by rw [loadtable_insert_length]; exact hlen)
      (querytable_lookup_insert_mono htab hlen s.1 s.2 n h)

/-- C17: frame of load.  For every reachable table of size at least 3 and names `m`,
`n`: loading `m` leaves every bucket other than `hash m % tabsz` as it was; when `n`
is a different string from `m` the query result for `n` is the same before and after;
and a name that is blocked stays blocked after any further sequence of loads. -/
theorem load_frame (tabsz : Nat) (htab : 3 ≤ tabsz) (htable : Table)
    (hr : Reachable tabsz htable) (malloc : Bool) (m n : CBuf) :
    (∀ i, i ≠ hash m % tabsz →
      (loadtable_insert malloc htable tabsz m).htable.getD i [] = htable.getD i []) ∧
    (cstr n ≠ cstr m →
      querytable_lookup (loadtable_insert malloc htable tabsz m).htable tabsz n =
        querytable_lookup htable tabsz n) ∧
    (∀ steps, querytable_lookup htable tabsz n = true →
      querytable_lookup (load_steps tabsz htable steps) tabsz n = true) := by
  refine ⟨fun i hi => loadtable_insert_getD_ne malloc htable tabsz m i hi, ?_,
    fun steps h => querytable_lookup_load_steps_mono (by omega) hr.length_eq steps n h⟩
  intro hne
  cases malloc
  · rw [loadtable_insert_false]
  · rw [querytable_lookup_insert (by omega) hr.length_eq]
    have : ¬ cstr m = cstr n := fun e => hne e.symm
    simp [this]

/-- Witness for C17: in a three-bucket table holding `ads.example.com`, loading
`tracker.example.net` does not change the answer for `safe.example.org`, and
`ads.example.com` stays blocked after two more loads. -/
theorem load_frame_witness :
    3 ≤ 3 ∧ Reachable 3 (loadtable_insert true (calloc 3) 3 (ascii "ads.example.com")).htable ∧
    querytable_lookup
      (loadtable_insert true (loadtable_insert true (calloc 3) 3 (ascii "ads.example.com")).htable
        3 (ascii "tracker.example.net")).htable 3 (ascii "safe.example.org") =
      querytable_lookup (loadtable_insert true (calloc 3) 3 (ascii "ads.example.com")).htable 3
        (ascii "safe.example.org") ∧
    querytable_lookup
      (load_steps 3 (loadtable_insert true (calloc 3) 3 (ascii "ads.example.com")).htable
        [(true, ascii "tracker.example.net"), (false, ascii "a")]) 3
      (ascii "ads.example.com") = true :=
  ⟨by decide, Reachable.load true _ Reachable.empty,
    (load_frame 3 (by decide) _ (Reachable.load true _ Reachable.empty) true
      (ascii "tracker.example.net") (ascii "safe.example.org")).2.1 (by decide),
    (load_frame 3 (by decide) _ (Reachable.load true _ Reachable.empty) true
      (ascii "tracker.example.net") (ascii "ads.example.com")).2.2 _ (by decide)⟩

/-! ## Shortest chain -/

/-- C19: the shortest-chain statistic ignores empty buckets.  For every table with a
non-empty chain, where `m` is the minimum length among the non-empty chains, `dostats`
reports `min 999999 m` as the shortest chain, which is at least 1 even when some
buckets are empty. -/
theorem dostats_shortest_nonempty (htable : Table) (m : Nat)
    (hm : ∃ chain ∈ htable, chain ≠ [] ∧ chain.length = m)
    (hmin : ∀ chain ∈ htable, chain ≠ [] → m ≤ chain.length) :
    (dostats htable htable.length).shortestChain = min 999999 m ∧
    1 ≤ (dostats htable htable.length).shortestChain := by
  rw [dostats_eq_foldl]
  simp only
  obtain ⟨h1, h2, h3⟩ :=
    foldl_min_spec ((htable.filter (fun c => c ≠ [])).map List.length) 999999
  obtain ⟨c, hc, hne, hlen⟩ := hm
  have hcm : c ∈ htable.filter (fun c => c ≠ []) := by
    rw [List.mem_filter]
    exact ⟨hc, by simpa using hne⟩
  have hle : List.foldl min 999999 ((htable.filter (fun c => c ≠ [])).map List.length) ≤ m := by
    rw [← hlen]
    exact h2 _ (List.mem_map_of_mem _ hcm)
  have hpos : 0 < m := by
    rw [← hlen]
    exact List.length_pos.2 hne
  have hge : List.foldl min 999999 ((htable.filter (fun c => c ≠ [])).map List.length) = 999999 ∨
      m ≤ List.foldl min 999999 ((htable.filter (fun c => c ≠ [])).map List.length) := by
    rcases h3 with h3 | h3
    · exact Or.inl h3
    · right
      obtain ⟨c2, hc2, hlen2⟩ := List.mem_map.1 h3
      rw [List.mem_filter] at hc2
      rw [← hlen2]
      exact hmin c2 hc2.1 (by simpa using hc2.2)
  constructor
  · rcases hge with hge | hge <;> omega
  · rcases hge with hge | hge <;> omega

/-- Witness for C19: chains of lengths 2, 0 and 1 give a shortest chain of 1. -/
theorem dostats_shortest_nonempty_witness :
    (dostats [[⟨ascii "a"⟩, ⟨ascii "d"⟩], [], [⟨ascii "b"⟩]] 3).shortestChain = min 999999 1 ∧
    1 ≤ (dostats [[⟨ascii "a"⟩, ⟨ascii "d"⟩], [], [⟨ascii "b"⟩]] 3).shortestChain :=
  dostats_shortest_nonempty [[⟨ascii "a"⟩, ⟨ascii "d"⟩], [], [⟨ascii "b"⟩]] 1
    ⟨[⟨ascii "b"⟩], by decide, by decide, rfl⟩ (by decide)

/-! ## Entries stored by loadtable -/

theorem cstr_strip_newline_cons (c : Byte) (s : CBuf) (hc0 : c ≠ 0) (hc10 : c ≠ 10) :
    ∃ t, cstr (strip_newline (c :: s)) = c :: t := by
  unfold strip_newline
  rw [strchr, if_neg hc10, if_neg hc0]
  cases strchr s 10 with
  | none => exact ⟨cstr s, by simp [cstr_cons, hc0]⟩
  | some i => exact ⟨cstr (s.set i 0), by simp [cstr_cons, hc0]⟩

theorem loadtable_insert_entries (Q : node → Prop) (malloc : Bool) (htable : Table) (tabsz : Nat)
    (line : CBuf) (hQ : Q { DNSname := cstr line })
    (hT : ∀ chain ∈ htable, ∀ e ∈ chain, Q e) :
    ∀ chain ∈ (loadtable_insert malloc htable tabsz line).htable, ∀ e ∈ chain, Q e := by
  rw [loadtable_insert_eq]
  by_cases hd : dns_lookup (htable.getD (hash line % tabsz) []) line = []
  · rw [if_neg (not_not.2 hd)]
    cases malloc
    · rw [if_neg (by decide)]
      exact hT
    · rw [if_pos rfl]
      intro chain hc e he
      rcases List.mem_or_eq_of_mem_set hc with hc | hc
      · exact hT chain hc e he
      · subst hc
        rcases List.mem_cons.1 he with he | he
        · rw [he]
          exact hQ
        · rcases getD_mem_or_nil htable (hash line % tabsz) with hm | hm
          · exact hT _ hm e he
          · rw [hm] at he
            cases he
  · rw [if_pos hd]
    exact hT

theorem loadtable_loop_entries (Q : node → Prop) (tabsz : Nat) (lines : List CBuf)
    (hQ : ∀ l ∈ lines, 0 < l.length → ¬ (l.getD 0 0 = 10 ∨ l.getD 0 0 = 35) →
      Q { DNSname := cstr (strip_newline l) }) :
    ∀ (malloc : Nat → Bool) (htable : Table) (dups : List CBuf) (out : LoadOut),
      (∀ chain ∈ htable, ∀ e ∈ chain, Q e) →
      loadtable_loop tabsz malloc lines htable dups = some out →
      ∀ chain ∈ out.htable, ∀ e ∈ chain, Q e := by
  induction lines with
  | nil =>
    intro malloc htable dups out hT h
    rw [loadtable_loop] at h
    injection h with h
    rw [← h]
    exact hT
  | cons l rest ih =>
    have hrest := ih (fun x hx => hQ x (List.mem_cons_of_mem _ hx))
    intro malloc htable dups out hT h
    rw [loadtable_loop] at h
    by_cases hl : l.length > 0
    · rw [if_pos hl] at h
      by_cases hs : l.getD 0 0 = 10 ∨ l.getD 0 0 = 35
      · rw [if_pos hs] at h
        exact hrest _ _ _ _ hT h
      · rw [if_neg hs] at h
        have hT1 := loadtable_insert_entries Q (malloc 0) htable tabsz (strip_newline l)
          (hQ l (List.mem_cons_self _ _) hl hs) hT
        simp only at h
        split at h
        · exact hrest _ _ _ _ hT1 h
        · exact hrest _ _ _ _ hT1 h
        · injection h with h
          rw [← h]
          exact hT1
        · cases h
    · rw [if_neg hl] at h
      injection h with h
      rw [← h]
      exact hT

theorem loadtable_loop_returns (tabsz : Nat) (lines : List CBuf) :
    ∀ (htable : Table) (dups : List CBuf),
      ∃ out, loadtable_loop tabsz (fun _ => true) lines htable dups = some out := by
  induction lines with
  | nil =>
    intro htable dups
    exact ⟨_, rfl⟩
  | cons l rest ih =>
    intro htable dups
    by_cases hl : 0 < l.length
    · by_cases hs : l.getD 0 0 = 10 ∨ l.getD 0 0 = 35
      · rw [loadtable_loop_skip _ _ _ _ _ _ hl hs]
        exact ih _ _
      · cases hq : querytable_lookup htable tabsz (strip_newline l)
        · rw [loadtable_loop_new _ _ _ _ _ _ hl hs rfl hq]
          exact ih _ _
        · rw [loadtable_loop_dup _ _ _ _ _ _ hl hs hq]
          exact ih _ _
    · rw [loadtable_loop, if_neg hl]
      exact ⟨_, rfl⟩

/-- C18: for every block list of `getline` lines without NUL bytes and every table
size at least 3, `loadtable` returns when allocations succeed, and whenever it returns
no stored entry is the empty string and none begins with `#`; hence `querytable`,
which has no blank or `#` filter, prints not blocked for a blank query line and for
every query line beginning with `#`, whatever the block list holds. -/
theorem loaded_entries_never_blank_or_comment (tabsz : Nat) (_htab : 3 ≤ tabsz)
    (lines : List CBuf) (hnn : ∀ l ∈ lines, ∀ c ∈ l, c ≠ 0) (malloc : Nat → Bool) :
    (∃ out, loadtable (fun _ => true) (calloc tabsz) tabsz (some lines) = some out) ∧
    ∀ out, loadtable malloc (calloc tabsz) tabsz (some lines) = some out →
      (∀ chain ∈ out.htable, ∀ e ∈ chain, e.DNSname ≠ [] ∧ e.DNSname.head? ≠ some 35) ∧
      (∀ q : CBuf, q = [10] ∨ q.head? = some 35 →
        querytable out.htable tabsz [q] = [⟨cstr (strip_newline q), false⟩]) := by
  refine ⟨loadtable_loop_returns tabsz lines _ _, ?_⟩
  intro out hout
  have hinv : ∀ chain ∈ out.htable, ∀ e ∈ chain,
      e.DNSname ≠ [] ∧ e.DNSname.head? ≠ some 35 ∧ cstr e.DNSname = e.DNSname := by
    refine loadtable_loop_entries
      (fun e => e.DNSname ≠ [] ∧ e.DNSname.head? ≠ some 35 ∧ cstr e.DNSname = e.DNSname)
      tabsz lines ?_ malloc (calloc tabsz) [] out ?_ hout
    · intro l hl hlen hs
      cases l with
      | nil => simp at hlen
      | cons c s =>
        have hc0 : c ≠ 0 := hnn _ hl c (List.mem_cons_self _ _)
        have hc : c ≠ 10 ∧ c ≠ 35 := by
          simpa [not_or] using hs
        obtain ⟨t, ht⟩ := cstr_strip_newline_cons c s hc0 hc.1
        refine ⟨?_, ?_, cstr_idem _⟩
        · simp only
          rw [ht]
          exact List.cons_ne_nil _ _
        · simp only
          rw [ht]
          simpa using hc.2
    · intro chain hc e he
      rw [List.eq_of_mem_replicate hc] at he
      cases he
  refine ⟨fun chain hc e he => ⟨(hinv chain hc e he).1, (hinv chain hc e he).2.1⟩, ?_⟩
  intro q hq
  have hfalse : querytable_lookup out.htable tabsz (strip_newline q) = false := by
    rw [Bool.eq_false_iff]
    intro hfound
    obtain ⟨e, he, hname⟩ := (querytable_lookup_iff _ _ _).1 hfound
    have hmem : ∃ chain ∈ out.htable, e ∈ chain := by
      rcases getD_mem_or_nil out.htable (hash (strip_newline q) % tabsz) with hm | hm
      · exact ⟨_, hm, he⟩
      · rw [hm] at he
        cases he
    obtain ⟨chain, hc, hec⟩ := hmem
    obtain ⟨h1, h2, h3⟩ := hinv chain hc e hec
    rw [h3] at hname
    rcases hq with hq | hq
    · apply h1
      rw [hname, hq]
      decide
    · cases q with
      | nil => simp at hq
      | cons c s =>
        have hc35 : c = 35 := by simpa using hq
        obtain ⟨t, ht⟩ := cstr_strip_newline_cons c s (by rw [hc35]; decide) (by rw [hc35]; decide)
        apply h2
        rw [hname, ht, hc35]
        rfl
  simp [querytable, hfalse]

/-- Witness for C18: a block list with a comment, a blank line and a name whose text
holds a `#` after its first byte. -/
theorem loaded_entries_never_blank_or_comment_witness :
    3 ≤ 3 ∧
    (∀ l ∈ [ascii "# comment\n", ascii "\n", ascii "a#b\n"], ∀ c ∈ l, c ≠ 0) ∧
    ∃ out, loadtable (fun _ => true) (calloc 3) 3
        (some [ascii "# comment\n", ascii "\n", ascii "a#b\n"]) = some out ∧
      (∀ chain ∈ out.htable, ∀ e ∈ chain, e.DNSname ≠ [] ∧ e.DNSname.head? ≠ some 35) ∧
      querytable out.htable 3 [ascii "#b\n"] = [⟨cstr (strip_newline (ascii "#b\n")), false⟩] :=
  ⟨by decide, by decide,
    ⟨_, rfl,
      ((loaded_entries_never_blank_or_comment 3 (by decide)
        [ascii "# comment\n", ascii "\n", ascii "a#b\n"] (by decide) (fun _ => true)).2 _ rfl).1,
      ((loaded_entries_never_blank_or_comment 3 (by decide)
        [ascii "# comment\n", ascii "\n", ascii "a#b\n"] (by decide) (fun _ => true)).2 _ rfl).2
        (ascii "#b\n") (by decide)⟩⟩

end DnsBlock
